import Mathlib

/-!
Verification development for the AES-128 block encryption of the CFS tag
reader firmware (arduino-firmware/CFS_Tag_Reader/AES.cpp and AES.h).

Bytes are natural numbers; every store into a C byte is an explicit
reduction modulo 256.  Byte arrays are lists, a store is List.set and a
load is List.getD with default 0.  A pointer into the middle of an array is
the list with the bytes before it dropped.
-/

set_option maxRecDepth 100000

namespace AES

/-! ## Constants of AES.cpp -/

/-- The table s_fwd of AES.cpp, lines 3 to 21. -/
def s_fwd : List Nat :=
  [99, 124, 119, 123, 242, 107, 111, 197, 48, 1, 103, 43, 254, 215, 171, 118,
   202, 130, 201, 125, 250, 89, 71, 240, 173, 212, 162, 175, 156, 164, 114, 192,
   183, 253, 147, 38, 54, 63, 247, 204, 52, 165, 229, 241, 113, 216, 49, 21,
   4, 199, 35, 195, 24, 150, 5, 154, 7, 18, 128, 226, 235, 39, 178, 117,
   9, 131, 44, 26, 27, 110, 90, 160, 82, 59, 214, 179, 41, 227, 47, 132,
   83, 209, 0, 237, 32, 252, 177, 91, 106, 203, 190, 57, 74, 76, 88, 207,
   208, 239, 170, 251, 67, 77, 51, 133, 69, 249, 2, 127, 80, 60, 159, 168,
   81, 163, 64, 143, 146, 157, 56, 245, 188, 182, 218, 33, 16, 255, 243, 210,
   205, 12, 19, 236, 95, 151, 68, 23, 196, 167, 126, 61, 100, 93, 25, 115,
   96, 129, 79, 220, 34, 42, 144, 136, 70, 238, 184, 20, 222, 94, 11, 219,
   224, 50, 58, 10, 73, 6, 36, 92, 194, 211, 172, 98, 145, 149, 228, 121,
   231, 200, 55, 109, 141, 213, 78, 169, 108, 86, 244, 234, 101, 122, 174, 8,
   186, 120, 37, 46, 28, 166, 180, 198, 232, 221, 116, 31, 75, 189, 139, 138,
   112, 62, 181, 102, 72, 3, 246, 14, 97, 53, 87, 185, 134, 193, 29, 158,
   225, 248, 152, 17, 105, 217, 142, 148, 155, 30, 135, 233, 206, 85, 40, 223,
   140, 161, 137, 13, 191, 230, 66, 104, 65, 153, 45, 15, 176, 84, 187, 22]

/-- The primary root key u_key of AES.cpp, lines 23 to 26. -/
def u_key : List Nat :=
  [113, 51, 98, 117, 94, 116, 49, 110, 113, 102, 90, 40, 112, 102, 36, 49]

/-- The secondary root key d_key of AES.cpp, lines 28 to 31. -/
def d_key : List Nat :=
  [72, 64, 67, 70, 107, 82, 110, 122, 64, 75, 65, 116, 66, 74, 112, 50]

/-! ## Machine model -/

/-- Conversion of an int value to the C type byte (unsigned char). -/
def byte (x : Nat) : Nat := x % 256

/-- A C loop with condition cond and body, run for at most fuel iterations;
none means the fuel ran out before the condition became false. -/
def while_loop {σ : Type} (cond : σ → Bool) (body : σ → Option σ) : Nat → σ → Option σ
  | 0, _ => none
  | fuel + 1, s => if cond s then (body s).bind (while_loop cond body fuel) else some s

/-! ## Functions of AES.cpp -/

/-- The doubling define f2 of AES.cpp line 33, on an int-promoted operand:
(x) & 0x80 ? (x << 1) ^ 0x011B : x << 1. -/
def f2 (x : Nat) : Nat :=
  if x &&& 0x80 ≠ 0 then (x <<< 1) ^^^ 0x011B else x <<< 1

/-- The halving define d2 of AES.cpp line 34:
((x) >> 1) ^ ((x) & 1 ? 0x008D : 0). -/
def d2 (x : Nat) : Nat :=
  (x >>> 1) ^^^ (if x &&& 1 ≠ 0 then 0x008D else 0)

/-- The function s_box of AES.cpp: a read of s_fwd at index x. -/
def s_box (x : Nat) : Nat := s_fwd.getD x 0

/-- Second loop of copy_n_bytes: while (nn--) *d++ = *s++; the pointers d
and s have both advanced by p. -/
def copy_n_bytes_rest (d s : List Nat) (p : Nat) : Nat → List Nat
  | 0 => d
  | nn + 1 => copy_n_bytes_rest (d.set p (s.getD p 0)) s (p + 1) nn

/-- First loop of copy_n_bytes, four bytes a turn while nn >= 4, followed by
the second loop. -/
def copy_n_bytes_from (d s : List Nat) (p : Nat) : Nat → List Nat
  | nn + 4 =>
    let d := d.set p (s.getD p 0)
    let d := d.set (p + 1) (s.getD (p + 1) 0)
    let d := d.set (p + 2) (s.getD (p + 2) 0)
    let d := d.set (p + 3) (s.getD (p + 3) 0)
    copy_n_bytes_from d s (p + 4) nn
  | nn => copy_n_bytes_rest d s p nn

/-- The function copy_n_bytes of AES.cpp; the result is the array d after the call. -/
def copy_n_bytes (d s : List Nat) (nn : Nat) : List Nat :=
  copy_n_bytes_from d s 0 nn

/-- One turn of the loop of copy_and_key; the state is the counter i, the
common advance p of the three pointers, and the array d. -/
def copy_and_key_body (s k : List Nat) (st : Nat × Nat × List Nat) : Nat × Nat × List Nat :=
  let (i, p, d) := st
  let d := d.set p (byte (s.getD p 0 ^^^ k.getD p 0))
  let d := d.set (p + 1) (byte (s.getD (p + 1) 0 ^^^ k.getD (p + 1) 0))
  let d := d.set (p + 2) (byte (s.getD (p + 2) 0 ^^^ k.getD (p + 2) 0))
  let d := d.set (p + 3) (byte (s.getD (p + 3) 0 ^^^ k.getD (p + 3) 0))
  (byte (i + 4), p + 4, d)

/-- The function copy_and_key of AES.cpp; the result is the array d after the call. -/
def copy_and_key (d s k : List Nat) : Option (List Nat) :=
  (while_loop (fun st => decide (st.1 < 16)) (fun st => some (copy_and_key_body s k st)) 256
    (0, 0, d)).map (fun st => st.2.2)

/-- The function shift_sub_rows of AES.cpp, statement by statement. -/
def shift_sub_rows (st : List Nat) : List Nat :=
  let st := st.set 0 (s_box (st.getD 0 0))
  let st := st.set 4 (s_box (st.getD 4 0))
  let st := st.set 8 (s_box (st.getD 8 0))
  let st := st.set 12 (s_box (st.getD 12 0))
  let tt := st.getD 1 0
  let st := st.set 1 (s_box (st.getD 5 0))
  let st := st.set 5 (s_box (st.getD 9 0))
  let st := st.set 9 (s_box (st.getD 13 0))
  let st := st.set 13 (s_box tt)
  let tt := st.getD 2 0
  let st := st.set 2 (s_box (st.getD 10 0))
  let st := st.set 10 (s_box tt)
  let tt := st.getD 6 0
  let st := st.set 6 (s_box (st.getD 14 0))
  let st := st.set 14 (s_box tt)
  let tt := st.getD 15 0
  let st := st.set 15 (s_box (st.getD 11 0))
  let st := st.set 11 (s_box (st.getD 7 0))
  let st := st.set 7 (s_box (st.getD 3 0))
  let st := st.set 3 (s_box tt)
  st

/-- Loop state of mix_sub_columns: the counters i, j, k, l and the array dt. -/
structure MixState where
  i : Nat
  j : Nat
  k : Nat
  l : Nat
  dt : List Nat

/-- One turn of the loop of mix_sub_columns. -/
def mix_sub_columns_body (st : List Nat) (m : MixState) : MixState :=
  let a := st.getD m.i 0
  let b := st.getD m.j 0
  let j := byte ((m.j + 4) &&& 15)
  let c := st.getD m.k 0
  let k := byte ((m.k + 4) &&& 15)
  let d := st.getD m.l 0
  let l := byte ((m.l + 4) &&& 15)
  let a1 := s_box a
  let b1 := s_box b
  let c1 := s_box c
  let d1 := s_box d
  let a2 := byte (f2 a1)
  let b2 := byte (f2 b1)
  let c2 := byte (f2 c1)
  let d2 := byte (f2 d1)
  let dt := m.dt.set m.i (byte (a2 ^^^ b2 ^^^ b1 ^^^ c1 ^^^ d1))
  let dt := dt.set (m.i + 1) (byte (a1 ^^^ b2 ^^^ c2 ^^^ c1 ^^^ d1))
  let dt := dt.set (m.i + 2) (byte (a1 ^^^ b1 ^^^ c2 ^^^ d2 ^^^ d1))
  let dt := dt.set (m.i + 3) (byte (a2 ^^^ a1 ^^^ b1 ^^^ c1 ^^^ d2))
  { i := byte (m.i + 4), j := j, k := k, l := l, dt := dt }

/-- The function mix_sub_columns of AES.cpp; the result is the array dt
after the call. -/
def mix_sub_columns (dt st : List Nat) : Option (List Nat) :=
  (while_loop (fun m => decide (m.i < 16)) (fun m => some (mix_sub_columns_body st m)) 256
    { i := 0, j := 5, k := 10, l := 15, dt := dt }).map (fun m => m.dt)

/-- Loop state of set_key: the counters cc, rc and next, and the member
array key_sched. -/
structure KeyState where
  cc : Nat
  rc : Nat
  next : Nat
  key_sched : List Nat

/-- The bound hi of set_key: hi = 11 << 4 stored in a byte. -/
def hi : Nat := byte (11 <<< 4)

/-- One turn of the outer loop of set_key (AES.cpp lines 128 to 144); the
two inner loops over i = 0, 1, 2, 3 are written out.  The int value cc - 16
stored in the byte tt is its residue modulo 256, computed as cc + 256 - 16 so
that the subtraction stays in the natural numbers. -/
def set_key_body (s : KeyState) : KeyState :=
  let cc := s.cc
  let key_sched := s.key_sched
  let t0 := key_sched.getD (cc - 4 + 0) 0
  let t1 := key_sched.getD (cc - 4 + 1) 0
  let t2 := key_sched.getD (cc - 4 + 2) 0
  let t3 := key_sched.getD (cc - 4 + 3) 0
  let (next, rc, t0, t1, t2, t3) :=
    if cc = s.next then
      let next := byte (s.next + 16)
      let ttt := t0
      let t0 := byte (s_box t1 ^^^ s.rc)
      let t1 := s_box t2
      let t2 := s_box t3
      let t3 := s_box ttt
      let rc := byte (f2 s.rc)
      (next, rc, t0, t1, t2, t3)
    else
      (s.next, s.rc, t0, t1, t2, t3)
  let tt := byte (cc + 256 - 16)
  let key_sched := key_sched.set (cc + 0) (byte (key_sched.getD (tt + 0) 0 ^^^ t0))
  let key_sched := key_sched.set (cc + 1) (byte (key_sched.getD (tt + 1) 0 ^^^ t1))
  let key_sched := key_sched.set (cc + 2) (byte (key_sched.getD (tt + 2) 0 ^^^ t2))
  let key_sched := key_sched.set (cc + 3) (byte (key_sched.getD (tt + 3) 0 ^^^ t3))
  { cc := byte (cc + 4), rc := rc, next := next, key_sched := key_sched }

/-- The state on entry to the loop of set_key: next = 16, cc = 16, rc = 1. -/
def set_key_init (key_sched : List Nat) : KeyState :=
  { cc := 16, rc := 1, next := 16, key_sched := key_sched }

/-- The key scheduler of set_key (AES.cpp lines 125 to 144): the expansion
loop run on a key_sched whose first 16 bytes hold the root key. -/
def set_key_expand (key_sched : List Nat) : Option (List Nat) :=
  (while_loop (fun s => decide (s.cc < hi)) (fun s => some (set_key_body s)) 256
    (set_key_init key_sched)).map (fun s => s.key_sched)

/-- The method AES::set_key; the result is the member key_sched after the
call and the returned byte. -/
def set_key (key_sched : List Nat) (keytype : Int) : Option (List Nat × Nat) :=
  let key_sched :=
    if keytype = 1 then copy_n_bytes key_sched d_key 16
    else copy_n_bytes key_sched u_key 16
  (set_key_expand key_sched).map (fun ks => (ks, 0))

/-- One turn of the round loop of encrypt (AES.cpp lines 155 to 159); the
state is the array s1 and the counter r. -/
def encrypt_round (key_sched : List Nat) (st : List Nat × Nat) : Option (List Nat × Nat) :=
  let (s1, r) := st
  let s2 := List.replicate 16 0
  (mix_sub_columns s2 s1).bind fun s2 =>
  (copy_and_key s1 s2 (key_sched.drop (r * 16))).bind fun s1 =>
  some (s1, byte (r + 1))

/-- The round sequence of encrypt (AES.cpp lines 151 to 161) on a given
key schedule; the result is the array cipher after the call. -/
def encrypt_rounds (key_sched plain cipher : List Nat) : Option (List Nat) :=
  let s1 := List.replicate 16 0
  (copy_and_key s1 plain key_sched).bind fun s1 =>
  (while_loop (fun st => decide (st.2 < 10)) (encrypt_round key_sched) 256 (s1, 1)).bind
    fun (s1, r) =>
  let s1 := shift_sub_rows s1
  copy_and_key cipher s1 (key_sched.drop (r * 16))

/-- The method AES::encrypt; the result is the member key_sched after the
call, the array cipher after the call and the returned int. -/
def encrypt (key_sched : List Nat) (keytype : Int) (plain cipher : List Nat) :
    Option (List Nat × List Nat × Int) :=
  (set_key key_sched keytype).bind fun (key_sched, _) =>
  (encrypt_rounds key_sched plain cipher).map fun cipher => (key_sched, cipher, 0)

/-! ## Checked embedding

The same functions with every array access checked: a load or store whose
index is outside the array fails with none, so a result some _ says that
every access made on the way was in bounds.  The bound of an array is its
declared size (16 for a state, a root key, plain and cipher, 256 for
s_fwd); for key_sched it is 176, the part that holds the schedule.  The
stores into the counters cc and next fail when the value does not fit a
byte. -/

/-- Checked load a[i] from an array of n elements. -/
def ld (n : Nat) (a : List Nat) (i : Nat) : Option Nat :=
  if i < n then a[i]? else none

/-- Checked load a[i] at an index computed in int. -/
def ldz (n : Nat) (a : List Nat) (i : Int) : Option Nat :=
  if 0 ≤ i then ld n a i.toNat else none

/-- Checked store a[i] = v into an array of n elements. -/
def stor (n : Nat) (a : List Nat) (i v : Nat) : Option (List Nat) :=
  if i < n ∧ i < a.length then some (a.set i v) else none

/-- Store into an 8-bit counter that fails when the value would wrap. -/
def nowrap (x : Nat) : Option Nat :=
  if x < 256 then some x else none

/-- The function s_box with the read of s_fwd checked. -/
def s_box_chk (x : Nat) : Option Nat := ld 256 s_fwd x

/-- The statement *d++ = *s++ of copy_n_bytes with the pointers advanced by
p; dn and sn are the sizes of the arrays behind d and s. -/
def copy_at (dn sn : Nat) (d s : List Nat) (p : Nat) : Option (List Nat) :=
  (ld sn s p).bind fun x => stor dn d p x

/-- Second loop of copy_n_bytes with checked accesses. -/
def copy_n_bytes_rest_chk (dn sn : Nat) (d s : List Nat) (p : Nat) : Nat → Option (List Nat)
  | 0 => some d
  | nn + 1 => (copy_at dn sn d s p).bind fun d => copy_n_bytes_rest_chk dn sn d s (p + 1) nn

/-- First loop of copy_n_bytes with checked accesses, followed by the second. -/
def copy_n_bytes_from_chk (dn sn : Nat) (d s : List Nat) (p : Nat) : Nat → Option (List Nat)
  | nn + 4 =>
    (copy_at dn sn d s p).bind fun d =>
    (copy_at dn sn d s (p + 1)).bind fun d =>
    (copy_at dn sn d s (p + 2)).bind fun d =>
    (copy_at dn sn d s (p + 3)).bind fun d =>
    copy_n_bytes_from_chk dn sn d s (p + 4) nn
  | nn => copy_n_bytes_rest_chk dn sn d s p nn

/-- The function copy_n_bytes with checked accesses. -/
def copy_n_bytes_chk (dn sn : Nat) (d s : List Nat) (nn : Nat) : Option (List Nat) :=
  copy_n_bytes_from_chk dn sn d s 0 nn

/-- The statement *d++ = *s++ ^ *k++ of copy_and_key with the pointers
advanced by p; dn, sn and kn are the sizes of the arrays behind d, s and k. -/
def xor_at (dn sn kn : Nat) (d s k : List Nat) (p : Nat) : Option (List Nat) :=
  (ld sn s p).bind fun x => (ld kn k p).bind fun y => stor dn d p (byte (x ^^^ y))

/-- One turn of the loop of copy_and_key with checked accesses. -/
def copy_and_key_body_chk (dn sn kn : Nat) (s k : List Nat) (st : Nat × Nat × List Nat) :
    Option (Nat × Nat × List Nat) :=
  let (i, p, d) := st
  (xor_at dn sn kn d s k p).bind fun d =>
  (xor_at dn sn kn d s k (p + 1)).bind fun d =>
  (xor_at dn sn kn d s k (p + 2)).bind fun d =>
  (xor_at dn sn kn d s k (p + 3)).bind fun d =>
  some (byte (i + 4), p + 4, d)

/-- The function copy_and_key with checked accesses. -/
def copy_and_key_chk (dn sn kn : Nat) (d s k : List Nat) : Option (List Nat) :=
  (while_loop (fun st => decide (st.1 < 16)) (copy_and_key_body_chk dn sn kn s k) 256
    (0, 0, d)).map (fun st => st.2.2)

/-- The statement st[dst] = s_box(st[src]) of shift_sub_rows. -/
def sub_at (st : List Nat) (dst src : Nat) : Option (List Nat) :=
  (ld 16 st src).bind fun x => (s_box_chk x).bind fun y => stor 16 st dst y

/-- The statement st[dst] = s_box(tt) of shift_sub_rows. -/
def sub_val (st : List Nat) (dst tt : Nat) : Option (List Nat) :=
  (s_box_chk tt).bind fun y => stor 16 st dst y

/-- Lines 68 to 71 of shift_sub_rows: row 0. -/
def shift_sub_rows_chk0 (st : List Nat) : Option (List Nat) :=
  (sub_at st 0 0).bind fun st =>
  (sub_at st 4 4).bind fun st =>
  (sub_at st 8 8).bind fun st =>
  sub_at st 12 12

/-- Lines 73 to 77 of shift_sub_rows: row 1. -/
def shift_sub_rows_chk1 (st : List Nat) : Option (List Nat) :=
  (ld 16 st 1).bind fun tt =>
  (sub_at st 1 5).bind fun st =>
  (sub_at st 5 9).bind fun st =>
  (sub_at st 9 13).bind fun st =>
  sub_val st 13 tt

/-- Lines 79 to 84 of shift_sub_rows: row 2. -/
def shift_sub_rows_chk2 (st : List Nat) : Option (List Nat) :=
  (ld 16 st 2).bind fun tt =>
  (sub_at st 2 10).bind fun st =>
  (sub_val st 10 tt).bind fun st =>
  (ld 16 st 6).bind fun tt =>
  (sub_at st 6 14).bind fun st =>
  sub_val st 14 tt

/-- Lines 86 to 90 of shift_sub_rows: row 3. -/
def shift_sub_rows_chk3 (st : List Nat) : Option (List Nat) :=
  (ld 16 st 15).bind fun tt =>
  (sub_at st 15 11).bind fun st =>
  (sub_at st 11 7).bind fun st =>
  (sub_at st 7 3).bind fun st =>
  sub_val st 3 tt

/-- The function shift_sub_rows with checked accesses. -/
def shift_sub_rows_chk (st : List Nat) : Option (List Nat) :=
  (shift_sub_rows_chk0 st).bind fun st =>
  (shift_sub_rows_chk1 st).bind fun st =>
  (shift_sub_rows_chk2 st).bind fun st =>
  shift_sub_rows_chk3 st

/-- The loads a = st[i], b = st[j], c = st[k], d = st[l] of mix_sub_columns
followed by the four calls of s_box: the result is a1, b1, c1, d1. -/
def mix_gather_chk (st : List Nat) (m : MixState) : Option (Nat × Nat × Nat × Nat) :=
  (ld 16 st m.i).bind fun a =>
  (ld 16 st m.j).bind fun b =>
  (ld 16 st m.k).bind fun c =>
  (ld 16 st m.l).bind fun d =>
  (s_box_chk a).bind fun a1 =>
  (s_box_chk b).bind fun b1 =>
  (s_box_chk c).bind fun c1 =>
  (s_box_chk d).bind fun d1 =>
  some (a1, b1, c1, d1)

/-- One turn of the loop of mix_sub_columns with checked accesses. -/
def mix_sub_columns_body_chk (st : List Nat) (m : MixState) : Option MixState :=
  (mix_gather_chk st m).bind fun (a1, b1, c1, d1) =>
  let j := byte ((m.j + 4) &&& 15)
  let k := byte ((m.k + 4) &&& 15)
  let l := byte ((m.l + 4) &&& 15)
  let a2 := byte (f2 a1)
  let b2 := byte (f2 b1)
  let c2 := byte (f2 c1)
  let d2 := byte (f2 d1)
  (stor 16 m.dt m.i (byte (a2 ^^^ b2 ^^^ b1 ^^^ c1 ^^^ d1))).bind fun dt =>
  (stor 16 dt (m.i + 1) (byte (a1 ^^^ b2 ^^^ c2 ^^^ c1 ^^^ d1))).bind fun dt =>
  (stor 16 dt (m.i + 2) (byte (a1 ^^^ b1 ^^^ c2 ^^^ d2 ^^^ d1))).bind fun dt =>
  (stor 16 dt (m.i + 3) (byte (a2 ^^^ a1 ^^^ b1 ^^^ c1 ^^^ d2))).bind fun dt =>
  some { i := byte (m.i + 4), j := j, k := k, l := l, dt := dt }

/-- The function mix_sub_columns with checked accesses. -/
def mix_sub_columns_chk (dt st : List Nat) : Option (List Nat) :=
  (while_loop (fun m => decide (m.i < 16)) (mix_sub_columns_body_chk st) 256
    { i := 0, j := 5, k := 10, l := 15, dt := dt }).map (fun m => m.dt)

/-- The loop t[i] = key_sched[cc - 4 + i] of set_key for i = 0, 1, 2, 3, the
index computed in int. -/
def set_key_load_chk (key_sched : List Nat) (cc : Nat) : Option (Nat × Nat × Nat × Nat) :=
  (ldz 176 key_sched ((cc : Int) - 4 + 0)).bind fun t0 =>
  (ldz 176 key_sched ((cc : Int) - 4 + 1)).bind fun t1 =>
  (ldz 176 key_sched ((cc : Int) - 4 + 2)).bind fun t2 =>
  (ldz 176 key_sched ((cc : Int) - 4 + 3)).bind fun t3 =>
  some (t0, t1, t2, t3)

/-- The branch if (cc == next) of set_key (AES.cpp lines 131 to 140); the
result is next, rc and t[0..3] after it. -/
def set_key_rot_chk (cc next rc t0 t1 t2 t3 : Nat) :
    Option (Nat × Nat × Nat × Nat × Nat × Nat) :=
  if cc = next then
    (nowrap (next + 16)).bind fun next =>
    (s_box_chk t1).bind fun y =>
    (s_box_chk t2).bind fun u1 =>
    (s_box_chk t3).bind fun u2 =>
    (s_box_chk t0).bind fun u3 =>
    some (next, byte (f2 rc), byte (y ^^^ rc), u1, u2, u3)
  else
    some (next, rc, t0, t1, t2, t3)

/-- The statement key_sched[cc + i] = key_sched[tt + i] ^ t[i] of set_key. -/
def set_key_store_chk (key_sched : List Nat) (cc tt i t : Nat) : Option (List Nat) :=
  (ld 176 key_sched (tt + i)).bind fun x => stor 176 key_sched (cc + i) (byte (x ^^^ t))

/-- One turn of the outer loop of set_key with checked accesses; tt is the
byte cc - 16, and the store into cc fails on a wrap. -/
def set_key_body_chk (s : KeyState) : Option KeyState :=
  (set_key_load_chk s.key_sched s.cc).bind fun (t0, t1, t2, t3) =>
  (set_key_rot_chk s.cc s.next s.rc t0 t1 t2 t3).bind fun (next, rc, t0, t1, t2, t3) =>
  let tt := byte (s.cc + 256 - 16)
  (set_key_store_chk s.key_sched s.cc tt 0 t0).bind fun key_sched =>
  (set_key_store_chk key_sched s.cc tt 1 t1).bind fun key_sched =>
  (set_key_store_chk key_sched s.cc tt 2 t2).bind fun key_sched =>
  (set_key_store_chk key_sched s.cc tt 3 t3).bind fun key_sched =>
  (nowrap (s.cc + 4)).bind fun cc =>
  some { cc := cc, rc := rc, next := next, key_sched := key_sched }

/-- The key scheduler of set_key with checked accesses. -/
def set_key_expand_chk (key_sched : List Nat) : Option (List Nat) :=
  (while_loop (fun s => decide (s.cc < hi)) set_key_body_chk 256
    (set_key_init key_sched)).map (fun s => s.key_sched)

/-- The method AES::set_key with checked accesses. -/
def set_key_chk (key_sched : List Nat) (keytype : Int) : Option (List Nat × Nat) :=
  (if keytype = 1 then copy_n_bytes_chk 176 16 key_sched d_key 16
    else copy_n_bytes_chk 176 16 key_sched u_key 16).bind fun key_sched =>
  (set_key_expand_chk key_sched).map (fun ks => (ks, 0))

/-- One turn of the round loop of encrypt with checked accesses; the round
key behind the pointer key_sched + r * 16 has 176 - r * 16 bytes left. -/
def encrypt_round_chk (key_sched : List Nat) (st : List Nat × Nat) :
    Option (List Nat × Nat) :=
  let (s1, r) := st
  let s2 := List.replicate 16 0
  (mix_sub_columns_chk s2 s1).bind fun s2 =>
  (copy_and_key_chk 16 16 (176 - r * 16) s1 s2 (key_sched.drop (r * 16))).bind fun s1 =>
  some (s1, byte (r + 1))

/-- The round sequence of encrypt with checked accesses. -/
def encrypt_rounds_chk (key_sched plain cipher : List Nat) : Option (List Nat) :=
  let s1 := List.replicate 16 0
  (copy_and_key_chk 16 16 176 s1 plain key_sched).bind fun s1 =>
  (while_loop (fun st => decide (st.2 < 10)) (encrypt_round_chk key_sched) 256 (s1, 1)).bind
    fun (s1, r) =>
  (shift_sub_rows_chk s1).bind fun s1 =>
  copy_and_key_chk 16 16 (176 - r * 16) cipher s1 (key_sched.drop (r * 16))

/-- The method AES::encrypt with checked accesses. -/
def encrypt_chk (key_sched : List Nat) (keytype : Int) (plain cipher : List Nat) :
    Option (List Nat × List Nat × Int) :=
  (set_key_chk key_sched keytype).bind fun (key_sched, _) =>
  (encrypt_rounds_chk key_sched plain cipher).map fun cipher => (key_sched, cipher, 0)

end AES


/-! ## Reference AES-128 (FIPS-197)

The cipher as the standard words it, independent of the tables and loops of
AES.cpp: the field GF(2^8) modulo x^8+x^4+x^3+x+1, the S-box as the affine
image of the field inverse, and the four transformations on a 16-byte state
held column by column (byte 4c + r is row r of column c).
-/

namespace FIPS197

/-- Carry-less product of two binary polynomials of degree below 8. -/
def clmul (a b : Nat) : Nat :=
  (List.range 8).foldl (fun acc i => if b.testBit i then acc ^^^ (a <<< i) else acc) 0

/-- Remainder of a binary polynomial of degree at most 14 modulo
x^8+x^4+x^3+x+1 (0x11B). -/
def polyMod (p : Nat) : Nat :=
  [14, 13, 12, 11, 10, 9, 8].foldl
    (fun p d => if p.testBit d then p ^^^ (0x11B <<< (d - 8)) else p) p

/-- Product in GF(2^8). -/
def gfMul (a b : Nat) : Nat := polyMod (clmul a b)

/-- Power in GF(2^8). -/
def gfPow (a : Nat) : Nat → Nat
  | 0 => 1
  | n + 1 => gfMul a (gfPow a n)

/-- Inverse in GF(2^8) as the power a^254 (squarings a^2, a^4, ..., a^128
multiplied together), which sends 0 to 0. -/
def gfInv (a : Nat) : Nat :=
  let a2 := gfMul a a
  let a4 := gfMul a2 a2
  let a8 := gfMul a4 a4
  let a16 := gfMul a8 a8
  let a32 := gfMul a16 a16
  let a64 := gfMul a32 a32
  let a128 := gfMul a64 a64
  gfMul a2 (gfMul a4 (gfMul a8 (gfMul a16 (gfMul a32 (gfMul a64 a128)))))

/-- Left rotation of a byte by n bits. -/
def rotl8 (b n : Nat) : Nat := ((b <<< n) ||| (b >>> (8 - n))) % 256

/-- The affine transformation of the S-box. -/
def affine (b : Nat) : Nat :=
  b ^^^ rotl8 b 1 ^^^ rotl8 b 2 ^^^ rotl8 b 3 ^^^ rotl8 b 4 ^^^ 0x63

/-- The Rijndael S-box. -/
def SBox (x : Nat) : Nat := affine (gfInv x)

/-- The xtime operation on a byte. -/
def xtime (x : Nat) : Nat :=
  if x.testBit 7 then ((x <<< 1) % 256) ^^^ 0x1B else x <<< 1

/-- SubBytes: the S-box on every byte of the state. -/
def SubBytes (s : List Nat) : List Nat := s.map SBox

/-- ShiftRows: row r is rotated left by r columns, so the byte at row r of
column c comes from row r of column (c + r) mod 4. -/
def ShiftRows (s : List Nat) : List Nat :=
  (List.range 16).map fun n => s.getD (4 * ((n / 4 + n % 4) % 4) + n % 4) 0

/-- The fixed matrix of MixColumns. -/
def mixMatrix : List (List Nat) :=
  [[2, 3, 1, 1], [1, 2, 3, 1], [1, 1, 2, 3], [3, 1, 1, 2]]

/-- Inner product of a matrix row and a column over GF(2^8). -/
def gfDot (row col : List Nat) : Nat :=
  (List.zipWith gfMul row col).foldl (fun x y => x ^^^ y) 0

/-- Product of the fixed matrix and one column. -/
def MixColumn (col : List Nat) : List Nat := mixMatrix.map fun row => gfDot row col

/-- MixColumns: every column is multiplied by the fixed matrix. -/
def MixColumns (s : List Nat) : List Nat :=
  MixColumn ((s.drop 0).take 4) ++ MixColumn ((s.drop 4).take 4) ++
    MixColumn ((s.drop 8).take 4) ++ MixColumn ((s.drop 12).take 4)

/-- AddRoundKey: bytewise XOR of the state and a round key. -/
def AddRoundKey (s k : List Nat) : List Nat := List.zipWith (fun x y => x ^^^ y) s k

/-- Word i of a key schedule held as bytes. -/
def word (w : List Nat) (i : Nat) : List Nat := (w.drop (4 * i)).take 4

/-- RotWord: the four bytes of a word rotated left by one byte. -/
def RotWord (x : List Nat) : List Nat := x.drop 1 ++ x.take 1

/-- SubWord: the S-box on every byte of a word. -/
def SubWord (x : List Nat) : List Nat := x.map SBox

/-- Round constant word j: the power x^(j-1) of the field followed by three
zero bytes. -/
def Rcon (j : Nat) : List Nat := [gfPow 2 (j - 1), 0, 0, 0]

/-- One step of KeyExpansion: word i is appended to the words before it. -/
def KeyExpansionStep (w : List Nat) (i : Nat) : List Nat :=
  let temp := word w (i - 1)
  let temp :=
    if i % 4 = 0 then AddRoundKey (SubWord (RotWord temp)) (Rcon (i / 4)) else temp
  w ++ AddRoundKey (word w (i - 4)) temp

/-- KeyExpansion for AES-128 (Nk = 4, Nb = 4, Nr = 10): words 4 to 43 are
appended to the four words of the key. -/
def KeyExpansion (key : List Nat) : List Nat :=
  (List.range' 4 40).foldl KeyExpansionStep key

/-- Round key r: words 4r to 4r + 3 of the schedule. -/
def RoundKey (w : List Nat) (r : Nat) : List Nat := (w.drop (16 * r)).take 16

/-- One full round: SubBytes, ShiftRows, MixColumns, AddRoundKey. -/
def Round (w : List Nat) (s : List Nat) (r : Nat) : List Nat :=
  AddRoundKey (MixColumns (ShiftRows (SubBytes s))) (RoundKey w r)

/-- The AES-128 cipher of FIPS-197 on one block. -/
def Cipher (key input : List Nat) : List Nat :=
  let w := KeyExpansion key
  let s := AddRoundKey input (RoundKey w 0)
  let s := (List.range' 1 9).foldl (Round w) s
  AddRoundKey (ShiftRows (SubBytes s)) (RoundKey w 10)

end FIPS197

/-! ## Auxiliary definitions used in the proofs -/

namespace AES

/-- One output column of mix_sub_columns from its four gathered bytes. -/
def mixcol (a b c d : Nat) : List Nat :=
  [byte (byte (f2 (s_box a)) ^^^ byte (f2 (s_box b)) ^^^ s_box b ^^^ s_box c ^^^ s_box d),
   byte (s_box a ^^^ byte (f2 (s_box b)) ^^^ byte (f2 (s_box c)) ^^^ s_box c ^^^ s_box d),
   byte (s_box a ^^^ s_box b ^^^ byte (f2 (s_box c)) ^^^ byte (f2 (s_box d)) ^^^ s_box d),
   byte (byte (f2 (s_box a)) ^^^ s_box a ^^^ s_box b ^^^ s_box c ^^^ byte (f2 (s_box d)))]

/-- The sixteen bytes copy_and_key stores. -/
def xor16 (s k : List Nat) : List Nat :=
  (List.range 16).map fun p => byte (s.getD p 0 ^^^ k.getD p 0)

def rcAt (m : Nat) : Nat := (fun x => byte (f2 x))^[m] 1

/-- Doubling of the low byte of a number: byte (f2 v) on a byte v. -/
def xt (v : Nat) : Nat := byte (f2 (v % 256))

/-- Multiplication by 9 = 8 + 1 built from doublings. -/
def m9 (y : Nat) : Nat := xt (xt (xt y)) ^^^ y

/-- Multiplication by 11 = 8 + 2 + 1 built from doublings. -/
def m11 (y : Nat) : Nat := xt (xt (xt y)) ^^^ xt y ^^^ y

/-- Multiplication by 13 = 8 + 4 + 1 built from doublings. -/
def m13 (y : Nat) : Nat := xt (xt (xt y)) ^^^ xt (xt y) ^^^ y

/-- Multiplication by 14 = 8 + 4 + 2 built from doublings. -/
def m14 (y : Nat) : Nat := xt (xt (xt y)) ^^^ xt (xt y) ^^^ xt y

/-- First row of the MixColumns matrix applied to a column. -/
def mixrow (u v w z : Nat) : Nat := xt u ^^^ xt v ^^^ v ^^^ w ^^^ z

/-- First row of the inverse MixColumns matrix (0e 0b 0d 09) applied to a column. -/
def invrow (y0 y1 y2 y3 : Nat) : Nat := m14 y0 ^^^ m11 y1 ^^^ m13 y2 ^^^ m9 y3

end AES

/-! ## Lemmas -/

namespace AES

open FIPS197

theorem byte_lt (x : Nat) : byte x < 256 := Nat.mod_lt _ (by decide)

theorem byte_of_lt {x : Nat} (h : x < 256) : byte x = x := Nat.mod_eq_of_lt h

theorem xor_lt {a b : Nat} (ha : a < 256) (hb : b < 256) : a ^^^ b < 256 :=
  Nat.xor_lt_two_pow (n := 8) ha hb

theorem and15 (x : Nat) : x &&& 15 = x % 16 := Nat.and_pow_two_sub_one_eq_mod x 4

theorem len16 (l : List Nat) (h : l.length = 16) :
    ∃ a0 a1 a2 a3 a4 a5 a6 a7 a8 a9 a10 a11 a12 a13 a14 a15,
      l = [a0, a1, a2, a3, a4, a5, a6, a7, a8, a9, a10, a11, a12, a13, a14, a15] := by
  match l, h with
  | [a0, a1, a2, a3, a4, a5, a6, a7, a8, a9, a10, a11, a12, a13, a14, a15], _ =>
    exact ⟨_, _, _, _, _, _, _, _, _, _, _, _, _, _, _, _, rfl⟩

/-- A loop whose body always succeeds runs its body n times when the
condition holds on the first n states and fails on the next. -/
theorem while_loop_iterate {σ : Type} (cond : σ → Bool) (f : σ → σ) (n : Nat) :
    ∀ (fuel : Nat) (s : σ), n < fuel → (∀ k, k < n → cond (f^[k] s) = true) →
      cond (f^[n] s) = false →
      while_loop cond (fun s => some (f s)) fuel s = some (f^[n] s) := by
  induction n with
  | zero =>
    intro fuel s hf _ hn
    obtain ⟨m, rfl⟩ : ∃ m, fuel = m + 1 := ⟨fuel - 1, by omega⟩
    simp only [Function.iterate_zero, id_eq] at hn
    simp [while_loop, hn]
  | succ n ih =>
    intro fuel s hf hc hn
    obtain ⟨m, rfl⟩ : ∃ m, fuel = m + 1 := ⟨fuel - 1, by omega⟩
    have h0 : cond s = true := hc 0 (by omega)
    simp only [while_loop, h0, if_true, Option.some_bind, Function.iterate_succ_apply]
    apply ih m (f s) (by omega)
    · intro k hk
      have := hc (k + 1) (by omega)
      simpa [Function.iterate_succ_apply] using this
    · simpa [Function.iterate_succ_apply] using hn

theorem s_box_lt (x : Nat) : s_box x < 256 := by
  by_cases h : x < 256
  · revert x; decide!
  · have : s_fwd.length ≤ x := by simp [s_fwd]; omega
    rw [s_box, List.getD_eq_default _ _ this]; decide

theorem gf_facts : ∀ v, v < 256 →
    gfMul 1 v = v ∧ gfMul 2 v = byte (f2 v) ∧ gfMul 3 v = byte (f2 v) ^^^ v ∧ SBox v = s_box v := by
  decide!

theorem SBox_eq (v : Nat) (h : v < 256) : SBox v = s_box v := (gf_facts v h).2.2.2

theorem rcAt_succ (m : Nat) : rcAt (m + 1) = byte (f2 (rcAt m)) := by
  unfold rcAt
  rw [Function.iterate_succ_apply']

theorem rcAt_eq : ∀ m, m < 10 → rcAt m = gfPow 2 m ∧ rcAt m < 256 := by decide!

theorem getD_set_ne (l : List Nat) (i j v : Nat) (h : i ≠ j) :
    (l.set i v).getD j 0 = l.getD j 0 := by
  simp [List.getD_eq_getElem?_getD, List.getElem?_set_ne h]

theorem getD_take (l : List Nat) (i m : Nat) (h : i < m) : (l.take m).getD i 0 = l.getD i 0 := by
  simp [List.getD_eq_getElem?_getD, List.getElem?_take, h]

theorem getD_drop (l : List Nat) (m p : Nat) : (l.drop m).getD p 0 = l.getD (m + p) 0 := by
  simp [List.getD_eq_getElem?_getD, List.getElem?_drop]

theorem getD_lt_of_mem_take (l : List Nat) (i m : Nat) (h : i < m) (hl : m ≤ l.length)
    (hb : ∀ x ∈ l.take m, x < 256) : l.getD i 0 < 256 := by
  apply hb
  rw [← getD_take l i m h, List.getD_eq_getElem?_getD]
  have : i < (l.take m).length := by rw [List.length_take]; omega
  rw [List.getElem?_eq_getElem this]
  exact List.getElem_mem _

/-- Four consecutive stores at c, c+1, c+2, c+3. -/
theorem set4_getElem? (l : List Nat) (c v0 v1 v2 v3 : Nat) (h : c + 4 ≤ l.length) (i : Nat) :
    ((((l.set c v0).set (c + 1) v1).set (c + 2) v2).set (c + 3) v3)[i]? =
      if i = c then some v0 else if i = c + 1 then some v1 else if i = c + 2 then some v2
      else if i = c + 3 then some v3 else l[i]? := by
  simp only [List.getElem?_set, List.length_set]
  by_cases h0 : i = c
  · subst h0; simp; omega
  by_cases h1 : i = c + 1
  · subst h1; simp; omega
  by_cases h2 : i = c + 2
  · subst h2; simp; omega
  by_cases h3 : i = c + 3
  · subst h3; simp; omega
  simp [h0, h1, h2, h3, Ne.symm h0, Ne.symm h1, Ne.symm h2, Ne.symm h3]

theorem set4_take (l : List Nat) (c v0 v1 v2 v3 : Nat) (h : c + 4 ≤ l.length) :
    (((((l.set c v0).set (c + 1) v1).set (c + 2) v2).set (c + 3) v3).take (c + 4)) =
      l.take c ++ [v0, v1, v2, v3] := by
  apply List.ext_getElem?
  intro i
  rw [List.getElem?_take, set4_getElem? l c v0 v1 v2 v3 h]
  have hlen : (l.take c).length = c := by rw [List.length_take]; omega
  by_cases hi : i < c
  · rw [List.getElem?_append_left (by omega), List.getElem?_take]
    have h0 : i ≠ c := by omega
    have h1 : i ≠ c + 1 := by omega
    have h2 : i ≠ c + 2 := by omega
    have h3 : i ≠ c + 3 := by omega
    have h4 : i < c + 4 := by omega
    simp [hi, h0, h1, h2, h3, h4]
  · have := hlen
    rw [List.getElem?_append_right (by omega), this]
    by_cases h0 : i = c
    · subst h0; simp
    by_cases h1 : i = c + 1
    · subst h1; simp
    by_cases h2 : i = c + 2
    · subst h2; simp
    by_cases h3 : i = c + 3
    · subst h3; simp
    have : ¬ i < c + 4 := by omega
    have h4 : 4 ≤ i - c := by omega
    simp [this, h0, h1, h2, h3]
    omega

theorem set4_drop (l : List Nat) (c v0 v1 v2 v3 m : Nat) (hm : c + 4 ≤ m) :
    (((((l.set c v0).set (c + 1) v1).set (c + 2) v2).set (c + 3) v3).drop m) = l.drop m := by
  apply List.ext_getElem?
  intro i
  rw [List.getElem?_drop, List.getElem?_drop]
  rw [List.getElem?_set_ne (by omega), List.getElem?_set_ne (by omega),
    List.getElem?_set_ne (by omega), List.getElem?_set_ne (by omega)]

/-- Four consecutive bytes of a list. -/
theorem take4_drop (W : List Nat) (m : Nat) (h : m + 4 ≤ W.length) :
    (W.drop m).take 4 = [W.getD m 0, W.getD (m + 1) 0, W.getD (m + 2) 0, W.getD (m + 3) 0] := by
  apply List.ext_getElem?
  intro i
  rw [List.getElem?_take, List.getElem?_drop]
  simp only [List.getD_eq_getElem?_getD]
  by_cases h0 : i = 0
  · subst h0; simp [List.getElem?_eq_getElem (show m < W.length by omega)]
  by_cases h1 : i = 1
  · subst h1; simp [List.getElem?_eq_getElem (show m + 1 < W.length by omega)]
  by_cases h2 : i = 2
  · subst h2; simp [List.getElem?_eq_getElem (show m + 2 < W.length by omega)]
  by_cases h3 : i = 3
  · subst h3; simp [List.getElem?_eq_getElem (show m + 3 < W.length by omega)]
  have : ¬ i < 4 := by omega
  have h4 : 4 ≤ i := by omega
  simp [this]
  omega

theorem MixColumn_eq (a b c d : Nat) (ha : a < 256) (hb : b < 256) (hc : c < 256)
    (hd : d < 256) : MixColumn [SBox a, SBox b, SBox c, SBox d] = mixcol a b c d := by
  obtain ⟨-, -, -, sa⟩ := gf_facts a ha
  obtain ⟨-, -, -, sb⟩ := gf_facts b hb
  obtain ⟨-, -, -, sc⟩ := gf_facts c hc
  obtain ⟨-, -, -, sd⟩ := gf_facts d hd
  rw [sa, sb, sc, sd]
  obtain ⟨a1, a2, a3, -⟩ := gf_facts (s_box a) (s_box_lt a)
  obtain ⟨b1, b2, b3, -⟩ := gf_facts (s_box b) (s_box_lt b)
  obtain ⟨c1, c2, c3, -⟩ := gf_facts (s_box c) (s_box_lt c)
  obtain ⟨d1, d2, d3, -⟩ := gf_facts (s_box d) (s_box_lt d)
  have la := s_box_lt a
  have lb := s_box_lt b
  have lc := s_box_lt c
  have ld := s_box_lt d
  have xa := byte_lt (f2 (s_box a))
  have xb := byte_lt (f2 (s_box b))
  have xc := byte_lt (f2 (s_box c))
  have xd := byte_lt (f2 (s_box d))
  simp only [MixColumn, mixMatrix, gfDot, List.map, List.zipWith, List.foldl, a1, a2, a3, b1, b2,
    b3, c1, c2, c3, d1, d2, d3, mixcol, Nat.zero_xor]
  rw [byte_of_lt (xor_lt (xor_lt (xor_lt (xor_lt xa xb) lb) lc) ld),
    byte_of_lt (xor_lt (xor_lt (xor_lt (xor_lt la xb) xc) lc) ld),
    byte_of_lt (xor_lt (xor_lt (xor_lt (xor_lt la lb) xc) xd) ld),
    byte_of_lt (xor_lt (xor_lt (xor_lt (xor_lt xa la) lb) lc) xd)]
  simp only [Nat.xor_assoc]

theorem mix_sub_columns_iter (dt st : List Nat) :
    mix_sub_columns dt st =
      some ((mix_sub_columns_body st)^[4] { i := 0, j := 5, k := 10, l := 15, dt := dt }).dt := by
  unfold mix_sub_columns
  rw [while_loop_iterate _ _ 4 256 _ (by decide)]
  · rfl
  · intro k hk
    interval_cases k <;> rfl
  · rfl

theorem mix_sub_columns_unroll
    (a0 a1 a2 a3 a4 a5 a6 a7 a8 a9 a10 a11 a12 a13 a14 a15 : Nat)
    (d0 d1 d2 d3 d4 d5 d6 d7 d8 d9 d10 d11 d12 d13 d14 d15 : Nat) :
    ((mix_sub_columns_body
        [a0, a1, a2, a3, a4, a5, a6, a7, a8, a9, a10, a11, a12, a13, a14, a15])^[4]
      { i := 0, j := 5, k := 10, l := 15,
        dt := [d0, d1, d2, d3, d4, d5, d6, d7, d8, d9, d10, d11, d12, d13, d14, d15] }).dt
      = mixcol a0 a5 a10 a15 ++ mixcol a4 a9 a14 a3 ++ mixcol a8 a13 a2 a7 ++
        mixcol a12 a1 a6 a11 := by
  simp only [Function.iterate_succ_apply, Function.iterate_zero, id_eq]
  simp only [mix_sub_columns_body]
  simp [byte, mixcol, and15]

theorem round_unroll (a0 a1 a2 a3 a4 a5 a6 a7 a8 a9 a10 a11 a12 a13 a14 a15 : Nat) :
    MixColumns (ShiftRows (SubBytes
        [a0, a1, a2, a3, a4, a5, a6, a7, a8, a9, a10, a11, a12, a13, a14, a15]))
      = MixColumn [SBox a0, SBox a5, SBox a10, SBox a15] ++
        MixColumn [SBox a4, SBox a9, SBox a14, SBox a3] ++
        MixColumn [SBox a8, SBox a13, SBox a2, SBox a7] ++
        MixColumn [SBox a12, SBox a1, SBox a6, SBox a11] := rfl

theorem mix_sub_columns_eq (dt st : List Nat) (hdt : dt.length = 16) (hst : st.length = 16)
    (hb : ∀ x ∈ st, x < 256) :
    mix_sub_columns dt st = some (MixColumns (ShiftRows (SubBytes st))) ∧
      (MixColumns (ShiftRows (SubBytes st))).length = 16 ∧
      ∀ x ∈ MixColumns (ShiftRows (SubBytes st)), x < 256 := by
  obtain ⟨a0, a1, a2, a3, a4, a5, a6, a7, a8, a9, a10, a11, a12, a13, a14, a15, rfl⟩ := len16 st hst
  obtain ⟨d0, d1, d2, d3, d4, d5, d6, d7, d8, d9, d10, d11, d12, d13, d14, d15, rfl⟩ := len16 dt hdt
  simp only [List.mem_cons, List.mem_singleton, forall_eq_or_imp, forall_eq, List.not_mem_nil,
    false_implies, implies_true, and_true] at hb
  obtain ⟨b0, b1, b2, b3, b4, b5, b6, b7, b8, b9, b10, b11, b12, b13, b14, b15⟩ := hb
  rw [mix_sub_columns_iter, mix_sub_columns_unroll, round_unroll,
    MixColumn_eq _ _ _ _ b0 b5 b10 b15, MixColumn_eq _ _ _ _ b4 b9 b14 b3,
    MixColumn_eq _ _ _ _ b8 b13 b2 b7, MixColumn_eq _ _ _ _ b12 b1 b6 b11]
  refine ⟨rfl, rfl, ?_⟩
  intro x hx
  simp only [mixcol, List.cons_append, List.nil_append, List.mem_cons, List.mem_singleton,
    List.not_mem_nil, or_false] at hx
  rcases hx with h | h | h | h | h | h | h | h | h | h | h | h | h | h | h | h <;>
    (rw [h]; exact byte_lt _)

theorem copy_and_key_eq (d s k : List Nat) (hd : d.length = 16) :
    copy_and_key d s k = some (xor16 s k) := by
  obtain ⟨d0, d1, d2, d3, d4, d5, d6, d7, d8, d9, d10, d11, d12, d13, d14, d15, rfl⟩ := len16 d hd
  unfold copy_and_key
  rw [while_loop_iterate _ _ 4 256 _ (by decide)]
  · simp only [Function.iterate_succ_apply, Function.iterate_zero, id_eq, copy_and_key_body]
    simp [xor16, List.range, List.range.loop]
  · intro k hk
    interval_cases k <;> rfl
  · rfl

theorem xor16_eq (s k rk : List Nat) (hs : s.length = 16) (hsb : ∀ x ∈ s, x < 256)
    (hrk : rk.length = 16) (hrkb : ∀ x ∈ rk, x < 256)
    (hk : ∀ p, p < 16 → k.getD p 0 = rk.getD p 0) : xor16 s k = AddRoundKey s rk := by
  obtain ⟨a0, a1, a2, a3, a4, a5, a6, a7, a8, a9, a10, a11, a12, a13, a14, a15, rfl⟩ := len16 s hs
  obtain ⟨k0, k1, k2, k3, k4, k5, k6, k7, k8, k9, k10, k11, k12, k13, k14, k15, rfl⟩ :=
    len16 rk hrk
  simp only [List.mem_cons, List.mem_singleton, forall_eq_or_imp, forall_eq, List.not_mem_nil,
    false_implies, implies_true, and_true] at hsb hrkb
  obtain ⟨b0, b1, b2, b3, b4, b5, b6, b7, b8, b9, b10, b11, b12, b13, b14, b15⟩ := hsb
  obtain ⟨c0, c1, c2, c3, c4, c5, c6, c7, c8, c9, c10, c11, c12, c13, c14, c15⟩ := hrkb
  have h0 := hk 0 (by decide)
  have h1 := hk 1 (by decide)
  have h2 := hk 2 (by decide)
  have h3 := hk 3 (by decide)
  have h4 := hk 4 (by decide)
  have h5 := hk 5 (by decide)
  have h6 := hk 6 (by decide)
  have h7 := hk 7 (by decide)
  have h8 := hk 8 (by decide)
  have h9 := hk 9 (by decide)
  have h10 := hk 10 (by decide)
  have h11 := hk 11 (by decide)
  have h12 := hk 12 (by decide)
  have h13 := hk 13 (by decide)
  have h14 := hk 14 (by decide)
  have h15 := hk 15 (by decide)
  simp only [xor16, List.range, List.range.loop, List.map, h0, h1, h2, h3, h4, h5, h6, h7, h8, h9,
    h10, h11, h12, h13, h14, h15, AddRoundKey, List.zipWith]
  simp only [List.getD_cons_zero, List.getD_cons_succ]
  rw [byte_of_lt (xor_lt b0 c0), byte_of_lt (xor_lt b1 c1), byte_of_lt (xor_lt b2 c2),
    byte_of_lt (xor_lt b3 c3), byte_of_lt (xor_lt b4 c4), byte_of_lt (xor_lt b5 c5),
    byte_of_lt (xor_lt b6 c6), byte_of_lt (xor_lt b7 c7), byte_of_lt (xor_lt b8 c8),
    byte_of_lt (xor_lt b9 c9), byte_of_lt (xor_lt b10 c10), byte_of_lt (xor_lt b11 c11),
    byte_of_lt (xor_lt b12 c12), byte_of_lt (xor_lt b13 c13), byte_of_lt (xor_lt b14 c14),
    byte_of_lt (xor_lt b15 c15)]

theorem shift_sub_rows_eq (st : List Nat) (hst : st.length = 16) (hb : ∀ x ∈ st, x < 256) :
    shift_sub_rows st = ShiftRows (SubBytes st) := by
  obtain ⟨a0, a1, a2, a3, a4, a5, a6, a7, a8, a9, a10, a11, a12, a13, a14, a15, rfl⟩ := len16 st hst
  simp only [List.mem_cons, List.mem_singleton, forall_eq_or_imp, forall_eq, List.not_mem_nil,
    false_implies, implies_true, and_true] at hb
  obtain ⟨b0, b1, b2, b3, b4, b5, b6, b7, b8, b9, b10, b11, b12, b13, b14, b15⟩ := hb
  have h2 : ShiftRows (SubBytes
      [a0, a1, a2, a3, a4, a5, a6, a7, a8, a9, a10, a11, a12, a13, a14, a15]) =
      [SBox a0, SBox a5, SBox a10, SBox a15, SBox a4, SBox a9, SBox a14, SBox a3,
       SBox a8, SBox a13, SBox a2, SBox a7, SBox a12, SBox a1, SBox a6, SBox a11] := rfl
  rw [h2, SBox_eq _ b0, SBox_eq _ b1, SBox_eq _ b2, SBox_eq _ b3, SBox_eq _ b4, SBox_eq _ b5,
    SBox_eq _ b6, SBox_eq _ b7, SBox_eq _ b8, SBox_eq _ b9, SBox_eq _ b10, SBox_eq _ b11,
    SBox_eq _ b12, SBox_eq _ b13, SBox_eq _ b14, SBox_eq _ b15]
  simp [shift_sub_rows]

theorem shift_sub_rows_length (st : List Nat) : (shift_sub_rows st).length = st.length := by
  simp [shift_sub_rows]

theorem shift_sub_rows_lt (st : List Nat) (hst : st.length = 16) :
    ∀ x ∈ shift_sub_rows st, x < 256 := by
  obtain ⟨a0, a1, a2, a3, a4, a5, a6, a7, a8, a9, a10, a11, a12, a13, a14, a15, rfl⟩ := len16 st hst
  simp [shift_sub_rows, s_box_lt]

theorem RoundKey_facts (ks W : List Nat) (hW : ks.take 176 = W) (hlen : 176 ≤ ks.length)
    (hb : ∀ x ∈ W, x < 256) (r : Nat) (hr : r ≤ 10) :
    (RoundKey W r).length = 16 ∧ (∀ x ∈ RoundKey W r, x < 256) ∧
      ∀ p, p < 16 → (ks.drop (r * 16)).getD p 0 = (RoundKey W r).getD p 0 := by
  have hWl : W.length = 176 := by rw [← hW, List.length_take]; omega
  refine ⟨?_, ?_, ?_⟩
  · rw [RoundKey, List.length_take, List.length_drop]; omega
  · intro x hx
    exact hb x (List.mem_of_mem_drop (List.mem_of_mem_take hx))
  · intro p hp
    rw [RoundKey, getD_take _ _ _ hp, getD_drop, getD_drop, ← hW, getD_take _ _ _ (by omega),
      Nat.mul_comm]

theorem AddRoundKey_length (s k : List Nat) (hs : s.length = 16) (hk : k.length = 16) :
    (AddRoundKey s k).length = 16 := by
  simp [AddRoundKey, hs, hk]

theorem AddRoundKey_lt (s k : List Nat) (hs : ∀ x ∈ s, x < 256) (hk : ∀ x ∈ k, x < 256) :
    ∀ x ∈ AddRoundKey s k, x < 256 := by
  intro x hx
  rw [AddRoundKey, List.mem_iff_getElem] at hx
  obtain ⟨i, hi, rfl⟩ := hx
  rw [List.getElem_zipWith]
  exact xor_lt (hs _ (List.getElem_mem _)) (hk _ (List.getElem_mem _))

/-- One call of copy_and_key on a round key is AddRoundKey. -/
theorem copy_and_key_round (ks W d s : List Nat) (hW : ks.take 176 = W) (hlen : 176 ≤ ks.length)
    (hb : ∀ x ∈ W, x < 256) (r : Nat) (hr : r ≤ 10) (hd : d.length = 16)
    (hs : s.length = 16) (hsb : ∀ x ∈ s, x < 256) :
    copy_and_key d s (ks.drop (r * 16)) = some (AddRoundKey s (RoundKey W r)) := by
  obtain ⟨h1, h2, h3⟩ := RoundKey_facts ks W hW hlen hb r hr
  rw [copy_and_key_eq d s _ hd, xor16_eq s _ _ hs hsb h1 h2 h3]

theorem encrypt_round_eq (ks W s : List Nat) (hW : ks.take 176 = W) (hlen : 176 ≤ ks.length)
    (hb : ∀ x ∈ W, x < 256) (r : Nat) (hr : r ≤ 10)
    (hs : s.length = 16) (hsb : ∀ x ∈ s, x < 256) :
    encrypt_round ks (s, r) = some (Round W s r, byte (r + 1)) := by
  obtain ⟨m1, m2, m3⟩ := mix_sub_columns_eq (List.replicate 16 0) s (by simp) hs hsb
  simp only [encrypt_round, m1, Option.some_bind,
    copy_and_key_round ks W s _ hW hlen hb r hr hs m2 m3, Round]

theorem Round_facts (W s : List Nat) (hWl : W.length = 176) (hb : ∀ x ∈ W, x < 256) (r : Nat)
    (hr : r ≤ 10) (hs : s.length = 16) (hsb : ∀ x ∈ s, x < 256) :
    (Round W s r).length = 16 ∧ ∀ x ∈ Round W s r, x < 256 := by
  obtain ⟨-, m2, m3⟩ := mix_sub_columns_eq (List.replicate 16 0) s (by simp) hs hsb
  have hk : (RoundKey W r).length = 16 := by
    rw [RoundKey, List.length_take, List.length_drop]; omega
  have hkb : ∀ x ∈ RoundKey W r, x < 256 := fun x hx =>
    hb x (List.mem_of_mem_drop (List.mem_of_mem_take hx))
  exact ⟨AddRoundKey_length _ _ m2 hk, AddRoundKey_lt _ _ m3 hkb⟩

theorem round_loop_eq (ks W : List Nat) (hW : ks.take 176 = W) (hlen : 176 ≤ ks.length)
    (hb : ∀ x ∈ W, x < 256) (m : Nat) :
    ∀ (r fuel : Nat) (s : List Nat), r + m = 10 → m < fuel → s.length = 16 →
      (∀ x ∈ s, x < 256) →
      while_loop (fun st => decide (st.2 < 10)) (encrypt_round ks) fuel (s, r) =
        some ((List.range' r m).foldl (Round W) s, 10) := by
  have hWl : W.length = 176 := by rw [← hW, List.length_take]; omega
  induction m with
  | zero =>
    intro r fuel s hr hf _ _
    obtain ⟨f, rfl⟩ : ∃ f, fuel = f + 1 := ⟨fuel - 1, by omega⟩
    have : r = 10 := by omega
    subst this
    simp [while_loop]
  | succ m ih =>
    intro r fuel s hr hf hs hsb
    obtain ⟨f, rfl⟩ : ∃ f, fuel = f + 1 := ⟨fuel - 1, by omega⟩
    have hr10 : r < 10 := by omega
    obtain ⟨l1, l2⟩ := Round_facts W s hWl hb r (by omega) hs hsb
    have hbyte : byte (r + 1) = r + 1 := byte_of_lt (by omega)
    simp only [while_loop, hr10, decide_True, if_true,
      encrypt_round_eq ks W s hW hlen hb r (by omega) hs hsb, Option.some_bind, hbyte]
    rw [ih (r + 1) f _ (by omega) (by omega) l1 l2, List.range'_succ, List.foldl_cons]

theorem encrypt_rounds_eq (ks key plain cipher : List Nat) (hW : ks.take 176 = KeyExpansion key)
    (hlen : 176 ≤ ks.length) (hb : ∀ x ∈ KeyExpansion key, x < 256)
    (hp : plain.length = 16) (hpb : ∀ x ∈ plain, x < 256) (hc : cipher.length = 16) :
    encrypt_rounds ks plain cipher = some (Cipher key plain) := by
  have hWl : (KeyExpansion key).length = 176 := by rw [← hW, List.length_take]; omega
  have h0 := copy_and_key_round ks _ (List.replicate 16 0) plain hW hlen hb 0 (by omega)
    (by simp) hp hpb
  simp only [Nat.zero_mul, List.drop_zero] at h0
  obtain ⟨k1, k2, -⟩ := RoundKey_facts ks _ hW hlen hb 0 (by omega)
  have a1 := AddRoundKey_length _ _ hp k1
  have a2 := AddRoundKey_lt _ _ hpb k2
  have hloop := round_loop_eq ks _ hW hlen hb 9 1 256 _ (by omega) (by omega) a1 a2
  have inv : ∀ n r (s : List Nat), r + n ≤ 10 → s.length = 16 → (∀ x ∈ s, x < 256) →
      ((List.range' r n).foldl (Round (KeyExpansion key)) s).length = 16 ∧
        ∀ x ∈ (List.range' r n).foldl (Round (KeyExpansion key)) s, x < 256 := by
    intro n
    induction n with
    | zero => intro r s _ h1 h2; exact ⟨h1, h2⟩
    | succ n ih =>
      intro r s hr h1 h2
      obtain ⟨l1, l2⟩ := Round_facts _ s hWl hb r (by omega) h1 h2
      rw [List.range'_succ, List.foldl_cons]
      exact ih (r + 1) _ (by omega) l1 l2
  obtain ⟨i1, i2⟩ := inv 9 1 _ (by omega) a1 a2
  have hfin := copy_and_key_round ks _ cipher
    (shift_sub_rows ((List.range' 1 9).foldl (Round (KeyExpansion key))
      (AddRoundKey plain (RoundKey (KeyExpansion key) 0))))
    hW hlen hb 10 (by omega) hc (by rw [shift_sub_rows_length]; exact i1)
    (shift_sub_rows_lt _ i1)
  rw [shift_sub_rows_eq _ i1 i2] at hfin
  simp only [encrypt_rounds, h0, Option.some_bind, hloop, shift_sub_rows_eq _ i1 i2, hfin,
    Cipher]

theorem set_key_body_step (s : KeyState) (n : Nat) (hn : n < 40)
    (hcc : s.cc = 16 + 4 * n) (hrc : s.rc = rcAt ((n + 3) / 4))
    (hnext : s.next = 16 + 16 * ((n + 3) / 4)) (hlen : 176 ≤ s.key_sched.length)
    (hb : ∀ x ∈ s.key_sched.take (16 + 4 * n), x < 256) :
    (set_key_body s).cc = 16 + 4 * (n + 1) ∧
    (set_key_body s).rc = rcAt ((n + 4) / 4) ∧
    (set_key_body s).next = 16 + 16 * ((n + 4) / 4) ∧
    (set_key_body s).key_sched.length = s.key_sched.length ∧
    (set_key_body s).key_sched.take (16 + 4 * (n + 1)) =
      KeyExpansionStep (s.key_sched.take (16 + 4 * n)) (n + 4) ∧
    (∀ x ∈ (set_key_body s).key_sched.take (16 + 4 * (n + 1)), x < 256) ∧
    ∀ m, 16 + 4 * (n + 1) ≤ m → (set_key_body s).key_sched.drop m = s.key_sched.drop m := by
  obtain ⟨cc, rc, next, ks⟩ := s
  simp only at hcc hrc hnext hlen hb
  subst hcc hrc hnext
  have hW : (ks.take (16 + 4 * n)).length = 16 + 4 * n := by rw [List.length_take]; omega
  have htt : byte (16 + 4 * n + 256 - 16) = 4 * n := by unfold byte; omega
  have e4 : 16 + 4 * (n + 1) = 16 + 4 * n + 4 := by omega
  have hw1 : word (ks.take (16 + 4 * n)) (n + 4 - 1) =
      [ks.getD (16 + 4 * n - 4) 0, ks.getD (16 + 4 * n - 4 + 1) 0,
       ks.getD (16 + 4 * n - 4 + 2) 0, ks.getD (16 + 4 * n - 4 + 3) 0] := by
    rw [word, take4_drop _ _ (by omega), getD_take _ _ _ (by omega), getD_take _ _ _ (by omega),
      getD_take _ _ _ (by omega), getD_take _ _ _ (by omega)]
    have : 4 * (n + 4 - 1) = 16 + 4 * n - 4 := by omega
    rw [this]
  have hw4 : word (ks.take (16 + 4 * n)) (n + 4 - 4) =
      [ks.getD (4 * n) 0, ks.getD (4 * n + 1) 0, ks.getD (4 * n + 2) 0,
       ks.getD (4 * n + 3) 0] := by
    rw [word, take4_drop _ _ (by omega), getD_take _ _ _ (by omega), getD_take _ _ _ (by omega),
      getD_take _ _ _ (by omega), getD_take _ _ _ (by omega)]
    have : 4 * (n + 4 - 4) = 4 * n := by omega
    rw [this]
  have b0 : ∀ i, i < 16 + 4 * n → ks.getD i 0 < 256 := fun i hi =>
    getD_lt_of_mem_take ks i _ hi (by omega) hb
  by_cases hc : n % 4 = 0
  · have e1 : 16 + 4 * n = 16 + 16 * ((n + 3) / 4) := by omega
    have e2 : (n + 4) / 4 = (n + 3) / 4 + 1 := by omega
    have e3 : (n + 4) % 4 = 0 := by omega
    have e5 : (n + 3) / 4 < 10 := by omega
    have hr := (rcAt_eq _ e5).2
    have hs0 := SBox_eq _ (b0 (16 + 4 * n - 4) (by omega))
    have hs1 := SBox_eq _ (b0 (16 + 4 * n - 4 + 1) (by omega))
    have hs2 := SBox_eq _ (b0 (16 + 4 * n - 4 + 2) (by omega))
    have hs3 := SBox_eq _ (b0 (16 + 4 * n - 4 + 3) (by omega))
    simp only [set_key_body, if_pos e1, htt, e4, Nat.add_zero]
    simp (disch := omega) only [getD_set_ne]
    refine ⟨by unfold byte; omega, ?_, by unfold byte; omega, by simp, ?_, ?_, ?_⟩
    · rw [e2, rcAt_succ]
    · rw [set4_take _ _ _ _ _ _ (by omega), KeyExpansionStep, hw1, hw4]
      simp only [e3, if_true, AddRoundKey, List.zipWith, RotWord, SubWord, Rcon, List.drop,
        List.take, List.cons_append, List.nil_append, List.map, Nat.xor_zero, hs0, hs1, hs2, hs3,
        e2, Nat.add_sub_cancel, ← (rcAt_eq _ e5).1]
      rw [byte_of_lt (xor_lt (s_box_lt _) hr),
        byte_of_lt (xor_lt (b0 _ (by omega)) (xor_lt (s_box_lt _) hr)),
        byte_of_lt (xor_lt (b0 _ (by omega)) (s_box_lt _)),
        byte_of_lt (xor_lt (b0 _ (by omega)) (s_box_lt _)),
        byte_of_lt (xor_lt (b0 _ (by omega)) (s_box_lt _))]
    · rw [set4_take _ _ _ _ _ _ (by omega)]
      intro x hx
      rcases List.mem_append.1 hx with h | h
      · exact hb x h
      · simp only [List.mem_cons, List.mem_singleton, List.not_mem_nil, or_false] at h
        rcases h with rfl | rfl | rfl | rfl <;> exact byte_lt _
    · intro m hm
      rw [set4_drop _ _ _ _ _ _ _ (by omega)]
  · have e1 : 16 + 4 * n ≠ 16 + 16 * ((n + 3) / 4) := by omega
    have e2 : (n + 4) / 4 = (n + 3) / 4 := by omega
    have e3 : ¬ (n + 4) % 4 = 0 := by omega
    simp only [set_key_body, if_neg e1, htt, e4, Nat.add_zero]
    simp (disch := omega) only [getD_set_ne]
    refine ⟨by unfold byte; omega, by rw [e2], by rw [e2], by simp, ?_, ?_, ?_⟩
    · rw [set4_take _ _ _ _ _ _ (by omega), KeyExpansionStep, hw1, hw4]
      simp only [e3, if_false, AddRoundKey, List.zipWith]
      rw [byte_of_lt (xor_lt (b0 _ (by omega)) (b0 _ (by omega))),
        byte_of_lt (xor_lt (b0 _ (by omega)) (b0 _ (by omega))),
        byte_of_lt (xor_lt (b0 _ (by omega)) (b0 _ (by omega))),
        byte_of_lt (xor_lt (b0 _ (by omega)) (b0 _ (by omega)))]
    · rw [set4_take _ _ _ _ _ _ (by omega)]
      intro x hx
      rcases List.mem_append.1 hx with h | h
      · exact hb x h
      · simp only [List.mem_cons, List.mem_singleton, List.not_mem_nil, or_false] at h
        rcases h with rfl | rfl | rfl | rfl <;> exact byte_lt _
    · intro m hm
      rw [set4_drop _ _ _ _ _ _ _ (by omega)]

theorem copy_n_bytes_16 (d s : List Nat) (hd : 16 ≤ d.length) (hs : s.length = 16) :
    (copy_n_bytes d s 16).length = d.length ∧ (copy_n_bytes d s 16).take 16 = s ∧
      ∀ m, 16 ≤ m → (copy_n_bytes d s 16).drop m = d.drop m := by
  have h : copy_n_bytes d s 16 =
      ((((((((((((((((d.set 0 (s.getD 0 0)).set (0 + 1) (s.getD 1 0)).set (0 + 2)
        (s.getD 2 0)).set (0 + 3) (s.getD 3 0)).set 4 (s.getD 4 0)).set (4 + 1)
        (s.getD 5 0)).set (4 + 2) (s.getD 6 0)).set (4 + 3) (s.getD 7 0)).set 8
        (s.getD 8 0)).set (8 + 1) (s.getD 9 0)).set (8 + 2) (s.getD 10 0)).set (8 + 3)
        (s.getD 11 0)).set 12 (s.getD 12 0)).set (12 + 1) (s.getD 13 0)).set (12 + 2)
        (s.getD 14 0)).set (12 + 3) (s.getD 15 0)) := rfl
  rw [h]
  refine ⟨by simp, ?_, ?_⟩
  · rw [show (16 : Nat) = 12 + 4 from rfl, set4_take _ _ _ _ _ _ (by simp; omega),
      show (12 : Nat) = 8 + 4 from rfl, set4_take _ _ _ _ _ _ (by simp; omega),
      show (8 : Nat) = 4 + 4 from rfl, set4_take _ _ _ _ _ _ (by simp; omega),
      show (4 : Nat) = 0 + 4 from rfl, set4_take _ _ _ _ _ _ (by simp; omega)]
    obtain ⟨a0, a1, a2, a3, a4, a5, a6, a7, a8, a9, a10, a11, a12, a13, a14, a15, rfl⟩ :=
      len16 s hs
    simp
  · intro m hm
    rw [set4_drop _ _ _ _ _ _ _ (by omega), set4_drop _ _ _ _ _ _ _ (by omega),
      set4_drop _ _ _ _ _ _ _ (by omega), set4_drop _ _ _ _ _ _ _ (by omega)]

/-- State of the expansion loop of set_key after n turns. -/
theorem set_key_iterate (ks : List Nat) (hlen : 176 ≤ ks.length)
    (hb : ∀ x ∈ ks.take 16, x < 256) (n : Nat) (hn : n ≤ 40) :
    (set_key_body^[n] (set_key_init ks)).cc = 16 + 4 * n ∧
    (set_key_body^[n] (set_key_init ks)).rc =
      rcAt ((n + 3) / 4) ∧
    (set_key_body^[n] (set_key_init ks)).next =
      16 + 16 * ((n + 3) / 4) ∧
    (set_key_body^[n] (set_key_init ks)).key_sched.length =
      ks.length ∧
    (set_key_body^[n] (set_key_init ks)).key_sched.take
      (16 + 4 * n) = (List.range' 4 n).foldl KeyExpansionStep (ks.take 16) ∧
    (∀ x ∈ (set_key_body^[n] (set_key_init ks)).key_sched.take (16 + 4 * n), x < 256) ∧
    ∀ m, 16 + 4 * n ≤ m →
      (set_key_body^[n] (set_key_init ks)).key_sched.drop m =
        ks.drop m := by
  induction n with
  | zero =>
    refine ⟨rfl, rfl, rfl, rfl, rfl, hb, fun _ _ => rfl⟩
  | succ n ih =>
    obtain ⟨h1, h2, h3, h4, h5, h6, h7⟩ := ih (by omega)
    rw [Function.iterate_succ_apply']
    obtain ⟨g1, g2, g3, g4, g5, g6, g7⟩ :=
      set_key_body_step _ n (by omega) h1 h2 h3 (by omega) h6
    refine ⟨g1, g2, g3, g4.trans h4, ?_, g6, ?_⟩
    · rw [g5, h5, List.range'_concat, List.foldl_append]
      simp only [List.foldl_cons, List.foldl_nil, Nat.one_mul]
      rw [Nat.add_comm 4 n]
    · intro m hm
      rw [g7 m (by omega), h7 m (by omega)]

theorem hi_eq : hi = 176 := by decide

/-- The expansion loop of set_key terminates and builds KeyExpansion of the
first 16 bytes in the first 176 bytes of key_sched, leaving the rest as it was. -/
theorem set_key_expand_eq (ks : List Nat) (hlen : 176 ≤ ks.length)
    (hb : ∀ x ∈ ks.take 16, x < 256) :
    ∃ ks', set_key_expand ks = some ks' ∧ ks'.length = ks.length ∧
      ks'.take 176 = KeyExpansion (ks.take 16) ∧ (∀ x ∈ ks'.take 176, x < 256) ∧
      ∀ m, 176 ≤ m → ks'.drop m = ks.drop m := by
  obtain ⟨-, -, -, h4, h5, h6, h7⟩ := set_key_iterate ks hlen hb 40 (by omega)
  refine ⟨_, ?_, h4, h5, h6, h7⟩
  unfold set_key_expand
  rw [while_loop_iterate _ _ 40 256 _ (by decide)]
  · rfl
  · intro k hk
    have := (set_key_iterate ks hlen hb k (by omega)).1
    simp only [this, hi_eq, decide_eq_true_eq]
    omega
  · have := (set_key_iterate ks hlen hb 40 (by omega)).1
    simp only [this, hi_eq]
    decide

theorem word_eq (W : List Nat) (j : Nat) (h : 4 * j + 4 ≤ W.length) :
    word W j = [W.getD (4 * j) 0, W.getD (4 * j + 1) 0, W.getD (4 * j + 2) 0,
      W.getD (4 * j + 3) 0] := by
  rw [word, take4_drop _ _ h]

theorem word_append (A B : List Nat) (j : Nat) (h : 4 * j + 4 ≤ A.length) :
    word (A ++ B) j = word A j := by
  unfold word
  rw [List.drop_append_of_le_length (by omega), List.take_append_of_le_length]
  rw [List.length_drop]; omega

theorem word_at_end (A N t : List Nat) (j : Nat) (hA : A.length = 4 * j) (hN : N.length = 4) :
    word (A ++ (N ++ t)) j = N := by
  unfold word
  rw [List.drop_append_of_le_length (by omega), List.drop_of_length_le (by omega),
    List.nil_append, List.take_append_of_le_length (by omega), List.take_of_length_le (by omega)]

theorem word_take (l : List Nat) (m j : Nat) (h : 4 * j + 4 ≤ m) (hl : m ≤ l.length) :
    word (l.take m) j = word l j := by
  have h1 : (l.take m).length = m := by rw [List.length_take]; omega
  conv_rhs => rw [← List.take_append_drop m l]
  rw [word_append _ _ _ (by omega)]

/-- The word that a step of KeyExpansion appends. -/
theorem KeyExpansionStep_eq (w : List Nat) (i : Nat) :
    KeyExpansionStep w i = w ++ AddRoundKey (word w (i - 4))
      (if i % 4 = 0 then AddRoundKey (SubWord (RotWord (word w (i - 1)))) (Rcon (i / 4))
        else word w (i - 1)) := rfl

theorem KeyExpansionStep_length (w : List Nat) (i : Nat) (hi : 4 ≤ i) (h : 4 * i ≤ w.length) :
    (KeyExpansionStep w i).length = w.length + 4 := by
  rw [KeyExpansionStep_eq, List.length_append, word_eq w (i - 4) (by omega),
    word_eq w (i - 1) (by omega)]
  split <;> simp [AddRoundKey, RotWord, SubWord, Rcon]

theorem expand_length (key : List Nat) (hk : key.length = 16) (n : Nat) :
    ((List.range' 4 n).foldl KeyExpansionStep key).length = 16 + 4 * n := by
  induction n with
  | zero => simpa using hk
  | succ n ih =>
    rw [List.range'_concat, List.foldl_append]
    simp only [List.foldl_cons, List.foldl_nil, Nat.one_mul]
    rw [KeyExpansionStep_length _ _ (by omega) (by omega), ih]
    omega

theorem expand_append (key : List Nat) (n m : Nat) :
    ∃ t, (List.range' 4 (n + m)).foldl KeyExpansionStep key =
      (List.range' 4 n).foldl KeyExpansionStep key ++ t := by
  induction m with
  | zero => exact ⟨[], by simp⟩
  | succ m ih =>
    obtain ⟨t, ht⟩ := ih
    rw [← Nat.add_assoc, List.range'_concat, List.foldl_append]
    simp only [List.foldl_cons, List.foldl_nil]
    rw [KeyExpansionStep_eq, ht, List.append_assoc]
    exact ⟨_, rfl⟩

theorem KeyExpansion_take16 (key : List Nat) (hk : key.length = 16) :
    (KeyExpansion key).take 16 = key := by
  obtain ⟨t, ht⟩ := expand_append key 0 40
  simp only [Nat.zero_add, List.range'_zero, List.foldl_nil] at ht
  rw [KeyExpansion, ht, List.take_append_of_le_length (by omega), List.take_of_length_le (by omega)]

/-- Every word of KeyExpansion from the fifth on obeys the recurrence of the
standard. -/
theorem KeyExpansion_rec (key : List Nat) (hk : key.length = 16) (i : Nat) (h4 : 4 ≤ i)
    (h44 : i < 44) :
    word (KeyExpansion key) i = AddRoundKey (word (KeyExpansion key) (i - 4))
      (if i % 4 = 0 then
        AddRoundKey (SubWord (RotWord (word (KeyExpansion key) (i - 1)))) (Rcon (i / 4))
       else word (KeyExpansion key) (i - 1)) := by
  obtain ⟨n, rfl⟩ : ∃ n, i = n + 4 := ⟨i - 4, by omega⟩
  obtain ⟨t, ht⟩ := expand_append key (n + 1) (40 - (n + 1))
  have e : n + 1 + (40 - (n + 1)) = 40 := by omega
  rw [e] at ht
  have hl := expand_length key hk n
  have hl1 := expand_length key hk (n + 1)
  have hs : (List.range' 4 (n + 1)).foldl KeyExpansionStep key =
      KeyExpansionStep ((List.range' 4 n).foldl KeyExpansionStep key) (n + 4) := by
    rw [List.range'_concat, List.foldl_append]
    simp only [List.foldl_cons, List.foldl_nil, Nat.one_mul]
    rw [Nat.add_comm 4 n]
  have hK : KeyExpansion key =
      (List.range' 4 n).foldl KeyExpansionStep key ++
        (AddRoundKey (word ((List.range' 4 n).foldl KeyExpansionStep key) (n + 4 - 4))
          (if (n + 4) % 4 = 0 then AddRoundKey (SubWord (RotWord
              (word ((List.range' 4 n).foldl KeyExpansionStep key) (n + 4 - 1))))
              (Rcon ((n + 4) / 4))
            else word ((List.range' 4 n).foldl KeyExpansionStep key) (n + 4 - 1)) ++ t) := by
    rw [KeyExpansion, ht, hs, KeyExpansionStep_eq, List.append_assoc]
  have hN : (AddRoundKey (word ((List.range' 4 n).foldl KeyExpansionStep key) (n + 4 - 4))
          (if (n + 4) % 4 = 0 then AddRoundKey (SubWord (RotWord
              (word ((List.range' 4 n).foldl KeyExpansionStep key) (n + 4 - 1))))
              (Rcon ((n + 4) / 4))
            else word ((List.range' 4 n).foldl KeyExpansionStep key) (n + 4 - 1))).length = 4 := by
    have := hl1
    rw [hs, KeyExpansionStep_eq, List.length_append, hl] at this
    omega
  have w1 : word (KeyExpansion key) (n + 4 - 4) =
      word ((List.range' 4 n).foldl KeyExpansionStep key) (n + 4 - 4) := by
    rw [hK, word_append _ _ _ (by omega)]
  have w2 : word (KeyExpansion key) (n + 4 - 1) =
      word ((List.range' 4 n).foldl KeyExpansionStep key) (n + 4 - 1) := by
    rw [hK, word_append _ _ _ (by omega)]
  rw [w1, w2]
  conv_lhs => rw [hK]
  exact word_at_end _ _ _ _ (by omega) hN

/-- The key scheduler run on a copied root key. -/
theorem set_key_expand_copy (ks key : List Nat) (hlen : 176 ≤ ks.length)
    (hk : key.length = 16) (hkb : ∀ x ∈ key, x < 256) :
    ∃ ks', set_key_expand (copy_n_bytes ks key 16) = some ks' ∧ ks'.length = ks.length ∧
      ks'.take 176 = KeyExpansion key ∧ (∀ x ∈ ks'.take 176, x < 256) ∧ ks'.take 16 = key ∧
      ∀ m, 176 ≤ m → ks'.drop m = ks.drop m := by
  obtain ⟨c1, c2, c3⟩ := copy_n_bytes_16 ks key (by omega) hk
  obtain ⟨ks', e1, e2, e3, e4, e5⟩ :=
    set_key_expand_eq (copy_n_bytes ks key 16) (by omega) (by rw [c2]; exact hkb)
  rw [c2] at e3
  refine ⟨ks', e1, e2.trans c1, e3, e4, ?_, ?_⟩
  · have : ks'.take 16 = (ks'.take 176).take 16 := by
      rw [List.take_take]; rfl
    rw [this, e3, KeyExpansion_take16 key hk]
  · intro m hm
    rw [e5 m hm, c3 m (by omega)]

theorem u_key_facts : u_key.length = 16 ∧ ∀ x ∈ u_key, x < 256 := by decide

theorem d_key_facts : d_key.length = 16 ∧ ∀ x ∈ d_key, x < 256 := by decide

theorem set_key_eq (ks : List Nat) (keytype : Int) (hlen : 176 ≤ ks.length) :
    ∃ ks', set_key ks keytype = some (ks', 0) ∧ ks'.length = ks.length ∧
      ks'.take 176 = KeyExpansion (if keytype = 1 then d_key else u_key) ∧
      (∀ x ∈ ks'.take 176, x < 256) ∧
      ks'.take 16 = (if keytype = 1 then d_key else u_key) ∧
      ∀ m, 176 ≤ m → ks'.drop m = ks.drop m := by
  by_cases h : keytype = 1
  · obtain ⟨ks', e1, e2⟩ := set_key_expand_copy ks d_key hlen d_key_facts.1 d_key_facts.2
    refine ⟨ks', ?_, ?_⟩
    · simp only [set_key, h, if_true, e1, Option.map_some']
    · simpa only [h, if_true] using e2
  · obtain ⟨ks', e1, e2⟩ := set_key_expand_copy ks u_key hlen u_key_facts.1 u_key_facts.2
    refine ⟨ks', ?_, ?_⟩
    · simp only [set_key, h, if_false, e1, Option.map_some']
    · simpa only [h, if_false] using e2

theorem encrypt_eq (ks : List Nat) (keytype : Int) (plain cipher : List Nat)
    (hlen : 176 ≤ ks.length) (hp : plain.length = 16) (hpb : ∀ x ∈ plain, x < 256)
    (hc : cipher.length = 16) :
    ∃ ks', set_key ks keytype = some (ks', 0) ∧
      ks'.take 16 = (if keytype = 1 then d_key else u_key) ∧
      encrypt ks keytype plain cipher =
        some (ks', Cipher (if keytype = 1 then d_key else u_key) plain, 0) := by
  obtain ⟨ks', e1, e2, e3, e4, e5, -⟩ := set_key_eq ks keytype hlen
  refine ⟨ks', e1, e5, ?_⟩
  have hr := encrypt_rounds_eq ks' _ plain cipher e3 (by omega) (by rw [← e3]; exact e4) hp hpb hc
  simp only [encrypt, e1, Option.some_bind, hr, Option.map_some']

/-- The key scheduler of set_key followed by the round sequence of encrypt,
on any 16-byte root key, is the reference cipher. -/
theorem encrypt_rounds_with_key (ks key plain cipher : List Nat) (hks : 176 ≤ ks.length)
    (hk : key.length = 16) (hkb : ∀ x ∈ key, x < 256) (hp : plain.length = 16)
    (hpb : ∀ x ∈ plain, x < 256) (hc : cipher.length = 16) :
    (set_key_expand (copy_n_bytes ks key 16)).bind
        (fun ks => encrypt_rounds ks plain cipher) = some (Cipher key plain) := by
  obtain ⟨ks', e1, e2, e3, e4, -, -⟩ := set_key_expand_copy ks key hks hk hkb
  rw [e1, Option.some_bind]
  exact encrypt_rounds_eq ks' _ _ cipher e3 (by omega) (by rw [← e3]; exact e4) hp hpb hc

/-- The reference cipher reproduces the example vector of FIPS-197 Appendix
C.1: key 00 01 .. 0f, input 00 11 .. ff, output 69 c4 e0 d8 .. c5 5a. -/
theorem Cipher_appendix_C1 :
    Cipher (List.range 16)
        [0x00, 0x11, 0x22, 0x33, 0x44, 0x55, 0x66, 0x77,
         0x88, 0x99, 0xaa, 0xbb, 0xcc, 0xdd, 0xee, 0xff] =
      [0x69, 0xc4, 0xe0, 0xd8, 0x6a, 0x7b, 0x04, 0x30,
       0xd8, 0xcd, 0xb7, 0x80, 0x70, 0xb4, 0xc5, 0x5a] := by
  have run : (set_key_expand (copy_n_bytes (List.replicate 240 0) (List.range 16) 16)).bind
      (fun ks => encrypt_rounds ks
        [0x00, 0x11, 0x22, 0x33, 0x44, 0x55, 0x66, 0x77,
         0x88, 0x99, 0xaa, 0xbb, 0xcc, 0xdd, 0xee, 0xff] (List.replicate 16 0)) =
      some [0x69, 0xc4, 0xe0, 0xd8, 0x6a, 0x7b, 0x04, 0x30,
            0xd8, 0xcd, 0xb7, 0x80, 0x70, 0xb4, 0xc5, 0x5a] := by decide!
  rw [encrypt_rounds_with_key _ _ _ _ (by decide) (by decide) (by decide) (by decide)
    (by decide) (by decide)] at run
  exact Option.some.inj run

end AES

/-! ## The claims -/

namespace AES

open FIPS197

/-- C1: for every keytype and every 16-byte plaintext, encrypt terminates
and the ciphertext it writes is the FIPS-197 AES-128 cipher of the plaintext
under the root key that set_key loads into the first 16 bytes of key_sched,
which is u_key or d_key. -/
theorem C1_encrypt_is_AES128 (keytype : Int) (key_sched plain cipher : List Nat)
    (hks : key_sched.length = 240) (hp : plain.length = 16) (hpb : ∀ x ∈ plain, x < 256)
    (hc : cipher.length = 16) :
    ∃ ks' root, set_key key_sched keytype = some (ks', 0) ∧ ks'.take 16 = root ∧
      (root = u_key ∨ root = d_key) ∧
      encrypt key_sched keytype plain cipher = some (ks', Cipher root plain, 0) := by
  obtain ⟨ks', e1, e2, e3⟩ := encrypt_eq key_sched keytype plain cipher (by omega) hp hpb hc
  refine ⟨ks', _, e1, e2, ?_, e3⟩
  by_cases h : keytype = 1
  · right; simp only [h, if_true]
  · left; simp only [h, if_false]

/-- Witness of C1 at keytype 0, the all-zero plaintext and zeroed buffers. -/
theorem C1_encrypt_is_AES128_witness :
    ∃ ks' root, set_key (List.replicate 240 0) 0 = some (ks', 0) ∧ ks'.take 16 = root ∧
      (root = u_key ∨ root = d_key) ∧
      encrypt (List.replicate 240 0) 0 (List.replicate 16 0) (List.replicate 16 0) =
        some (ks', Cipher root (List.replicate 16 0), 0) :=
  C1_encrypt_is_AES128 0 (List.replicate 240 0) (List.replicate 16 0) (List.replicate 16 0)
    (by decide) (by decide) (by decide) (by decide)

/-- C2: the key scheduler of set_key and the round sequence of encrypt, run
on the all-zero root key and the all-zero plaintext, give the FIPS-197 test
vector 66 e9 4b d4 ef 8a 2c 3b 88 4c fa 59 ca 34 2b 2e, whatever key_sched
and the cipher buffer held before. -/
theorem C2_known_answer (key_sched cipher : List Nat) (hks : key_sched.length = 240)
    (hc : cipher.length = 16) :
    (set_key_expand (copy_n_bytes key_sched (List.replicate 16 0) 16)).bind
        (fun ks => encrypt_rounds ks (List.replicate 16 0) cipher) =
      some [0x66, 0xe9, 0x4b, 0xd4, 0xef, 0x8a, 0x2c, 0x3b,
            0x88, 0x4c, 0xfa, 0x59, 0xca, 0x34, 0x2b, 0x2e] := by
  have gen : ∀ ks c : List Nat, ks.length = 240 → c.length = 16 →
      (set_key_expand (copy_n_bytes ks (List.replicate 16 0) 16)).bind
        (fun ks => encrypt_rounds ks (List.replicate 16 0) c) =
      some (Cipher (List.replicate 16 0) (List.replicate 16 0)) := fun ks c h1 h2 =>
    encrypt_rounds_with_key ks _ _ c (by omega) (by decide) (by decide) (by decide)
      (by decide) h2
  have run : (set_key_expand (copy_n_bytes (List.replicate 240 0) (List.replicate 16 0) 16)).bind
      (fun ks => encrypt_rounds ks (List.replicate 16 0) (List.replicate 16 0)) =
      some [0x66, 0xe9, 0x4b, 0xd4, 0xef, 0x8a, 0x2c, 0x3b,
            0x88, 0x4c, 0xfa, 0x59, 0xca, 0x34, 0x2b, 0x2e] := by decide!
  rw [gen key_sched cipher hks hc, ← run, gen _ _ (by decide) (by decide)]

/-- Witness of C2 on a zeroed key_sched and a cipher buffer of sevens. -/
theorem C2_known_answer_witness :
    (set_key_expand (copy_n_bytes (List.replicate 240 0) (List.replicate 16 0) 16)).bind
        (fun ks => encrypt_rounds ks (List.replicate 16 0) (List.replicate 16 7)) =
      some [0x66, 0xe9, 0x4b, 0xd4, 0xef, 0x8a, 0x2c, 0x3b,
            0x88, 0x4c, 0xfa, 0x59, 0xca, 0x34, 0x2b, 0x2e] :=
  C2_known_answer (List.replicate 240 0) (List.replicate 16 7) (by decide) (by decide)

/-- C3, counterexample: keytype 2 is non-zero, yet set_key 2 leaves u_key,
not d_key, in the first 16 bytes of key_sched. -/
theorem C3_counterexample :
    (2 : Int) ≠ 0 ∧ ∃ ks', set_key (List.replicate 240 0) 2 = some (ks', 0) ∧
      ks'.take 16 = u_key ∧ ks'.take 16 ≠ d_key := by
  obtain ⟨ks', e1, -, -, -, e5, -⟩ := set_key_eq (List.replicate 240 0) 2 (by decide)
  refine ⟨by decide, ks', e1, ?_, ?_⟩
  · rw [e5]; rfl
  · rw [e5]; decide

/-- C3, amended: set_key terminates and the first 16 bytes of key_sched then
equal d_key when keytype is 1 and u_key for every other keytype, 0 included;
so for every keytype other than 1, set_key and encrypt do what they do for
keytype 0. -/
theorem C3_key_selection (keytype : Int) (key_sched : List Nat) (hks : key_sched.length = 240) :
    (∃ ks', set_key key_sched keytype = some (ks', 0) ∧
      ks'.take 16 = (if keytype = 1 then d_key else u_key)) ∧
    (keytype ≠ 1 → set_key key_sched keytype = set_key key_sched 0 ∧
      ∀ plain cipher, encrypt key_sched keytype plain cipher = encrypt key_sched 0 plain cipher) := by
  refine ⟨?_, ?_⟩
  · obtain ⟨ks', e1, -, -, -, e5, -⟩ := set_key_eq key_sched keytype (by omega)
    exact ⟨ks', e1, e5⟩
  · intro h
    have hs : set_key key_sched keytype = set_key key_sched 0 := by
      simp [set_key, h]
    refine ⟨hs, ?_⟩
    intro plain cipher
    simp only [encrypt, hs]

/-- Witness of C3 (amended) at keytype 1. -/
theorem C3_key_selection_witness :
    (∃ ks', set_key (List.replicate 240 0) 1 = some (ks', 0) ∧
      ks'.take 16 = (if (1 : Int) = 1 then d_key else u_key)) ∧
    ((1 : Int) ≠ 1 → set_key (List.replicate 240 0) 1 = set_key (List.replicate 240 0) 0 ∧
      ∀ plain cipher, encrypt (List.replicate 240 0) 1 plain cipher =
        encrypt (List.replicate 240 0) 0 plain cipher) :=
  C3_key_selection 1 (List.replicate 240 0) (by decide)

/-- C4: on every 16-byte state, mix_sub_columns terminates and leaves in dt
MixColumns (ShiftRows (SubBytes st)), where SubBytes is the S-box s_box on
every byte. -/
theorem C4_mix_sub_columns_fused (dt st : List Nat) (hdt : dt.length = 16)
    (hst : st.length = 16) (hb : ∀ x ∈ st, x < 256) :
    mix_sub_columns dt st = some (MixColumns (ShiftRows (SubBytes st))) ∧
      SubBytes st = st.map s_box := by
  refine ⟨(mix_sub_columns_eq dt st hdt hst hb).1, ?_⟩
  unfold SubBytes
  exact List.map_congr_left fun x hx => SBox_eq x (hb x hx)

/-- Witness of C4 on the state 0, 1, ..., 15. -/
theorem C4_mix_sub_columns_fused_witness :
    mix_sub_columns (List.replicate 16 0) (List.range 16) =
        some (MixColumns (ShiftRows (SubBytes (List.range 16)))) ∧
      SubBytes (List.range 16) = (List.range 16).map s_box :=
  C4_mix_sub_columns_fused (List.replicate 16 0) (List.range 16) (by decide) (by decide)
    (by decide)

/-- C5: for every 16-byte root key copied into key_sched, the key scheduler
of set_key terminates with the root key in bytes 0..15 and, at every word
offset o = 16, 20, ..., 172, the word at o equal to the word at o - 16 XOR
g (the word at o - 4), g being the identity unless o is a multiple of 16 and
then RotWord, SubWord and the XOR with the round constant of block o / 16. -/
theorem C5_key_expansion (key_sched key : List Nat) (hks : key_sched.length = 240)
    (hk : key.length = 16) (hkb : ∀ x ∈ key, x < 256) :
    ∃ ks', set_key_expand (copy_n_bytes key_sched key 16) = some ks' ∧
      ks'.length = 240 ∧ ks'.take 16 = key ∧
      ∀ o, 16 ≤ o → o < 176 → o % 4 = 0 →
        word ks' (o / 4) = AddRoundKey (word ks' ((o - 16) / 4))
          (if o % 16 = 0 then
            AddRoundKey (SubWord (RotWord (word ks' ((o - 4) / 4)))) (Rcon (o / 16))
           else word ks' ((o - 4) / 4)) := by
  obtain ⟨ks', e1, e2, e3, -, e5, -⟩ := set_key_expand_copy key_sched key (by omega) hk hkb
  refine ⟨ks', e1, e2.trans hks, e5, ?_⟩
  intro o h16 h176 h4
  have hl : 176 ≤ ks'.length := by omega
  have r := KeyExpansion_rec key hk (o / 4) (by omega) (by omega)
  rw [← e3, word_take _ _ _ (by omega) hl, word_take _ _ _ (by omega) hl,
    word_take _ _ _ (by omega) hl] at r
  have a1 : (o - 16) / 4 = o / 4 - 4 := by omega
  have a2 : (o - 4) / 4 = o / 4 - 1 := by omega
  have a3 : o / 16 = o / 4 / 4 := by omega
  have a4 : (o % 16 = 0) = (o / 4 % 4 = 0) := by
    apply propext; constructor <;> intro h <;> omega
  rw [a1, a2, a3, r]
  simp only [a4]

/-- Witness of C5 on the root key 0, 1, ..., 15. -/
theorem C5_key_expansion_witness :
    ∃ ks', set_key_expand (copy_n_bytes (List.replicate 240 0) (List.range 16) 16) = some ks' ∧
      ks'.length = 240 ∧ ks'.take 16 = List.range 16 ∧
      ∀ o, 16 ≤ o → o < 176 → o % 4 = 0 →
        word ks' (o / 4) = AddRoundKey (word ks' ((o - 16) / 4))
          (if o % 16 = 0 then
            AddRoundKey (SubWord (RotWord (word ks' ((o - 4) / 4)))) (Rcon (o / 16))
           else word ks' ((o - 4) / 4)) :=
  C5_key_expansion (List.replicate 240 0) (List.range 16) (by decide) (by decide) (by decide)

/-- C6: on every 16-byte state, shift_sub_rows leaves at row r of column c
the S-box image of the old byte at row r of column (c + r) mod 4, with no
mixing; on bytes this is ShiftRows (SubBytes st). -/
theorem C6_shift_sub_rows (st : List Nat) (hst : st.length = 16) :
    (shift_sub_rows st).length = 16 ∧
    (∀ c r, c < 4 → r < 4 →
      (shift_sub_rows st).getD (4 * c + r) 0 = s_box (st.getD (4 * ((c + r) % 4) + r) 0)) ∧
    ((∀ x ∈ st, x < 256) → shift_sub_rows st = ShiftRows (SubBytes st)) := by
  refine ⟨by rw [shift_sub_rows_length, hst], ?_, fun hb => shift_sub_rows_eq st hst hb⟩
  obtain ⟨a0, a1, a2, a3, a4, a5, a6, a7, a8, a9, a10, a11, a12, a13, a14, a15, rfl⟩ := len16 st hst
  intro c r hc hr
  interval_cases c <;> interval_cases r <;> simp [shift_sub_rows]

/-- Witness of C6 on the state 0, 1, ..., 15. -/
theorem C6_shift_sub_rows_witness :
    (shift_sub_rows (List.range 16)).length = 16 ∧
    (∀ c r, c < 4 → r < 4 →
      (shift_sub_rows (List.range 16)).getD (4 * c + r) 0 =
        s_box ((List.range 16).getD (4 * ((c + r) % 4) + r) 0)) ∧
    ((∀ x ∈ List.range 16, x < 256) →
      shift_sub_rows (List.range 16) = ShiftRows (SubBytes (List.range 16))) :=
  C6_shift_sub_rows (List.range 16) (by decide)

/-- C7: for every byte x, f2 x stored in a byte is xtime x (shift left by
one, reduced modulo 256, XOR 0x1B when bit 7 of x is set), which is the
product of x and 2 in GF(2^8) modulo 0x11B. -/
theorem C7_f2_is_xtime : ∀ x, x < 256 →
    byte (f2 x) = xtime x ∧ xtime x = gfMul x 2 ∧ xtime x = gfMul 2 x := by
  decide!

/-- Witness of C7 at the byte 0x80. -/
theorem C7_f2_is_xtime_witness :
    byte (f2 0x80) = xtime 0x80 ∧ xtime 0x80 = gfMul 0x80 2 ∧ xtime 0x80 = gfMul 2 0x80 :=
  C7_f2_is_xtime 0x80 (by decide)

/-- C8: for every byte x, s_box x is the affine transformation of the
multiplicative inverse of x in GF(2^8), the inverse of 0 being 0: gfInv x is
a byte whose product with x is 1 when x is not 0, and gfInv 0 = 0. -/
theorem C8_s_box_is_Rijndael : ∀ x, x < 256 →
    s_box x = affine (gfInv x) ∧ gfInv x < 256 ∧ (x ≠ 0 → gfMul x (gfInv x) = 1) ∧
      (x = 0 → gfInv x = 0) := by
  decide!

/-- Witness of C8 at the byte 0x53, whose inverse is 0xCA and image 0xED. -/
theorem C8_s_box_is_Rijndael_witness :
    s_box 0x53 = affine (gfInv 0x53) ∧ gfInv 0x53 < 256 ∧
      ((0x53 : Nat) ≠ 0 → gfMul 0x53 (gfInv 0x53) = 1) ∧ ((0x53 : Nat) = 0 → gfInv 0x53 = 0) :=
  C8_s_box_is_Rijndael 0x53 (by decide)

/-- C9: s_box is a permutation of the byte values: s_fwd has 256 entries, so
s_box is defined on every byte x; s_box x is a byte; s_box x = s_box y
implies x = y for bytes x and y; and every byte value occurs exactly once in
s_fwd. -/
theorem C9_s_box_permutation (x y : Nat) (hx : x < 256) (hy : y < 256) :
    s_fwd.length = 256 ∧ s_box x < 256 ∧ (s_box x = s_box y → x = y) ∧ s_fwd.count x = 1 := by
  have hn : s_fwd.Nodup := by decide!
  have hl : s_fwd.length = 256 := by decide
  have hcount : ∀ v, v < 256 → s_fwd.count v = 1 := by decide!
  refine ⟨hl, s_box_lt x, ?_, hcount x hx⟩
  intro h
  have hx' : x < s_fwd.length := by omega
  have hy' : y < s_fwd.length := by omega
  have e : s_fwd[x] = s_fwd[y] := by
    simpa [s_box, List.getD_eq_getElem?_getD, List.getElem?_eq_getElem hx',
      List.getElem?_eq_getElem hy'] using h
  exact (hn.getElem_inj_iff).1 e

/-- Witness of C9 at the bytes 0x52 and 0x53. -/
theorem C9_s_box_permutation_witness :
    s_fwd.length = 256 ∧ s_box 0x52 < 256 ∧ (s_box 0x52 = s_box 0x53 → 0x52 = 0x53) ∧
      s_fwd.count 0x52 = 1 :=
  C9_s_box_permutation 0x52 0x53 (by decide) (by decide)

/-- C10: the ciphertext encrypt writes depends on keytype and the plaintext
only: from any two contents of the 240-byte key_sched and of the cipher
buffer, encrypt terminates and writes the same 16 bytes. -/
theorem C10_encrypt_pure (keytype : Int) (plain ks1 ks2 c1 c2 : List Nat)
    (hp : plain.length = 16) (hpb : ∀ x ∈ plain, x < 256)
    (h1 : ks1.length = 240) (h2 : ks2.length = 240) (hc1 : c1.length = 16)
    (hc2 : c2.length = 16) :
    ∃ ct, (encrypt ks1 keytype plain c1).map (fun r => r.2.1) = some ct ∧
      (encrypt ks2 keytype plain c2).map (fun r => r.2.1) = some ct := by
  obtain ⟨k1, -, -, e1⟩ := encrypt_eq ks1 keytype plain c1 (by omega) hp hpb hc1
  obtain ⟨k2, -, -, e2⟩ := encrypt_eq ks2 keytype plain c2 (by omega) hp hpb hc2
  exact ⟨_, by rw [e1]; rfl, by rw [e2]; rfl⟩

/-- Witness of C10 at keytype 1: a key_sched of zeros against a key_sched of
ones, and two different cipher buffers. -/
theorem C10_encrypt_pure_witness :
    ∃ ct, (encrypt (List.replicate 240 0) 1 (List.range 16) (List.replicate 16 0)).map
        (fun r => r.2.1) = some ct ∧
      (encrypt (List.replicate 240 1) 1 (List.range 16) (List.replicate 16 9)).map
        (fun r => r.2.1) = some ct :=
  C10_encrypt_pure 1 (List.range 16) (List.replicate 240 0) (List.replicate 240 1)
    (List.replicate 16 0) (List.replicate 16 9) (by decide) (by decide) (by decide) (by decide)
    (by decide) (by decide)

/-- C11: set_key terminates from every content of key_sched, the bytes it
leaves in key_sched[0..175] are the same from any two contents, and a second
set_key with the same keytype leaves key_sched exactly as the first did. -/
theorem C11_set_key_deterministic (keytype : Int) (ks1 ks2 : List Nat)
    (h1 : ks1.length = 240) (h2 : ks2.length = 240) :
    ∃ k1 k2, set_key ks1 keytype = some (k1, 0) ∧ set_key ks2 keytype = some (k2, 0) ∧
      k1.take 176 = k2.take 176 ∧ set_key k1 keytype = some (k1, 0) := by
  obtain ⟨k1, a1, a2, a3, -, -, -⟩ := set_key_eq ks1 keytype (by omega)
  obtain ⟨k2, b1, -, b3, -, -, -⟩ := set_key_eq ks2 keytype (by omega)
  obtain ⟨k3, c1, -, c3, -, -, c6⟩ := set_key_eq k1 keytype (by omega)
  refine ⟨k1, k2, a1, b1, a3.trans b3.symm, ?_⟩
  have e : k3 = k1 := by
    rw [← List.take_append_drop 176 k3, ← List.take_append_drop 176 k1, c3, a3,
      c6 176 (by omega)]
  rw [c1, e]

/-- Witness of C11 at keytype 1 on a key_sched of zeros and one of ones. -/
theorem C11_set_key_deterministic_witness :
    ∃ k1 k2, set_key (List.replicate 240 0) 1 = some (k1, 0) ∧
      set_key (List.replicate 240 1) 1 = some (k2, 0) ∧
      k1.take 176 = k2.take 176 ∧ set_key k1 1 = some (k1, 0) :=
  C11_set_key_deterministic 1 (List.replicate 240 0) (List.replicate 240 1) (by decide)
    (by decide)

/-- C13: on the all-zero plaintext, encrypt with keytype 0 writes
1d 0e 88 ea cf 60 d7 4e 42 21 09 07 41 d9 7c a7 and encrypt with keytype 1
writes c3 b9 8e 0e 7a 3d 24 8a 5d 78 13 c0 e2 6b 58 1a, two different
ciphertexts, whatever key_sched and the cipher buffers held before. -/
theorem C13_key_separation (ks1 ks2 c1 c2 : List Nat) (h1 : ks1.length = 240)
    (h2 : ks2.length = 240) (hc1 : c1.length = 16) (hc2 : c2.length = 16) :
    (encrypt ks1 0 (List.replicate 16 0) c1).map (fun r => r.2.1) =
      some [0x1d, 0x0e, 0x88, 0xea, 0xcf, 0x60, 0xd7, 0x4e,
            0x42, 0x21, 0x09, 0x07, 0x41, 0xd9, 0x7c, 0xa7] ∧
    (encrypt ks2 1 (List.replicate 16 0) c2).map (fun r => r.2.1) =
      some [0xc3, 0xb9, 0x8e, 0x0e, 0x7a, 0x3d, 0x24, 0x8a,
            0x5d, 0x78, 0x13, 0xc0, 0xe2, 0x6b, 0x58, 0x1a] ∧
    (encrypt ks1 0 (List.replicate 16 0) c1).map (fun r => r.2.1) ≠
      (encrypt ks2 1 (List.replicate 16 0) c2).map (fun r => r.2.1) := by
  have gen : ∀ (kt : Int) (ks c : List Nat), ks.length = 240 → c.length = 16 →
      (encrypt ks kt (List.replicate 16 0) c).map (fun r => r.2.1) =
        some (Cipher (if kt = 1 then d_key else u_key) (List.replicate 16 0)) := by
    intro kt ks c hk hc
    obtain ⟨ks', -, -, e⟩ :=
      encrypt_eq ks kt (List.replicate 16 0) c (by omega) (by decide) (by decide) hc
    simp only [e, Option.map_some']
  have run0 : (encrypt (List.replicate 240 0) 0 (List.replicate 16 0)
      (List.replicate 16 0)).map (fun r => r.2.1) =
      some [0x1d, 0x0e, 0x88, 0xea, 0xcf, 0x60, 0xd7, 0x4e,
            0x42, 0x21, 0x09, 0x07, 0x41, 0xd9, 0x7c, 0xa7] := by decide!
  have run1 : (encrypt (List.replicate 240 0) 1 (List.replicate 16 0)
      (List.replicate 16 0)).map (fun r => r.2.1) =
      some [0xc3, 0xb9, 0x8e, 0x0e, 0x7a, 0x3d, 0x24, 0x8a,
            0x5d, 0x78, 0x13, 0xc0, 0xe2, 0x6b, 0x58, 0x1a] := by decide!
  have r0 := gen 0 ks1 c1 h1 hc1
  have r1 := gen 1 ks2 c2 h2 hc2
  rw [← gen 0 (List.replicate 240 0) (List.replicate 16 0) (by decide) (by decide), run0] at r0
  rw [← gen 1 (List.replicate 240 0) (List.replicate 16 0) (by decide) (by decide), run1] at r1
  refine ⟨r0, r1, ?_⟩
  rw [r0, r1]
  decide

/-- Witness of C13 on zeroed buffers. -/
theorem C13_key_separation_witness :
    (encrypt (List.replicate 240 0) 0 (List.replicate 16 0) (List.replicate 16 0)).map
        (fun r => r.2.1) =
      some [0x1d, 0x0e, 0x88, 0xea, 0xcf, 0x60, 0xd7, 0x4e,
            0x42, 0x21, 0x09, 0x07, 0x41, 0xd9, 0x7c, 0xa7] ∧
    (encrypt (List.replicate 240 0) 1 (List.replicate 16 0) (List.replicate 16 0)).map
        (fun r => r.2.1) =
      some [0xc3, 0xb9, 0x8e, 0x0e, 0x7a, 0x3d, 0x24, 0x8a,
            0x5d, 0x78, 0x13, 0xc0, 0xe2, 0x6b, 0x58, 0x1a] ∧
    (encrypt (List.replicate 240 0) 0 (List.replicate 16 0) (List.replicate 16 0)).map
        (fun r => r.2.1) ≠
      (encrypt (List.replicate 240 0) 1 (List.replicate 16 0) (List.replicate 16 0)).map
        (fun r => r.2.1) :=
  C13_key_separation (List.replicate 240 0) (List.replicate 240 0) (List.replicate 16 0)
    (List.replicate 16 0) (by decide) (by decide) (by decide) (by decide)

/-- C14: for every keytype and every 16-byte plaintext, encrypt terminates
and returns 0, and the set_key call inside it terminates and returns 0. -/
theorem C14_encrypt_returns_zero (keytype : Int) (key_sched plain cipher : List Nat)
    (hks : key_sched.length = 240) (hp : plain.length = 16) (hpb : ∀ x ∈ plain, x < 256)
    (hc : cipher.length = 16) :
    (set_key key_sched keytype).map (fun r => r.2) = some 0 ∧
      (encrypt key_sched keytype plain cipher).map (fun r => r.2.2) = some 0 := by
  obtain ⟨ks', e1, -, e3⟩ := encrypt_eq key_sched keytype plain cipher (by omega) hp hpb hc
  simp only [e1, e3, Option.map_some', and_self]

/-- Witness of C14 at keytype 5 on the plaintext 0, 1, ..., 15. -/
theorem C14_encrypt_returns_zero_witness :
    (set_key (List.replicate 240 0) 5).map (fun r => r.2) = some 0 ∧
      (encrypt (List.replicate 240 0) 5 (List.range 16) (List.replicate 16 0)).map
        (fun r => r.2.2) = some 0 :=
  C14_encrypt_returns_zero 5 (List.replicate 240 0) (List.range 16) (List.replicate 16 0)
    (by decide) (by decide) (by decide) (by decide)

/-- C20: on bytes the halving define d2 undoes the doubling define f2 and
the other way round: d2 (f2 x mod 256) = x and f2 (d2 x) mod 256 = x. -/
theorem C20_d2_inverts_f2 : ∀ x, x < 256 → d2 (byte (f2 x)) = x ∧ byte (f2 (d2 x)) = x := by
  decide!

/-- Witness of C20 at the byte 0x9b. -/
theorem C20_d2_inverts_f2_witness : d2 (byte (f2 0x9b)) = 0x9b ∧ byte (f2 (d2 0x9b)) = 0x9b :=
  C20_d2_inverts_f2 0x9b (by decide)

theorem copy_and_key_iter (d s k : List Nat) :
    copy_and_key d s k = some ((copy_and_key_body s k)^[4] (0, 0, d)).2.2 := by
  unfold copy_and_key
  rw [while_loop_iterate _ _ 4 256 _ (by decide)]
  · rfl
  · intro k hk
    interval_cases k <;> rfl
  · rfl

theorem copy_and_key_sets (d s k : List Nat) :
    ((copy_and_key_body s k)^[4] (0, 0, d)).2.2 =
      ((((((((((((((((d.set 0 (byte (s.getD 0 0 ^^^ k.getD 0 0))).set (0 + 1)
        (byte (s.getD 1 0 ^^^ k.getD 1 0))).set (0 + 2)
        (byte (s.getD 2 0 ^^^ k.getD 2 0))).set (0 + 3)
        (byte (s.getD 3 0 ^^^ k.getD 3 0))).set 4
        (byte (s.getD 4 0 ^^^ k.getD 4 0))).set (4 + 1)
        (byte (s.getD 5 0 ^^^ k.getD 5 0))).set (4 + 2)
        (byte (s.getD 6 0 ^^^ k.getD 6 0))).set (4 + 3)
        (byte (s.getD 7 0 ^^^ k.getD 7 0))).set 8
        (byte (s.getD 8 0 ^^^ k.getD 8 0))).set (8 + 1)
        (byte (s.getD 9 0 ^^^ k.getD 9 0))).set (8 + 2)
        (byte (s.getD 10 0 ^^^ k.getD 10 0))).set (8 + 3)
        (byte (s.getD 11 0 ^^^ k.getD 11 0))).set 12
        (byte (s.getD 12 0 ^^^ k.getD 12 0))).set (12 + 1)
        (byte (s.getD 13 0 ^^^ k.getD 13 0))).set (12 + 2)
        (byte (s.getD 14 0 ^^^ k.getD 14 0))).set (12 + 3)
        (byte (s.getD 15 0 ^^^ k.getD 15 0))) := by
  simp only [Function.iterate_succ_apply, Function.iterate_zero, id_eq, copy_and_key_body]

theorem getD_lt_of_bytes (l : List Nat) (hb : ∀ x ∈ l, x < 256) (i : Nat) : l.getD i 0 < 256 := by
  rw [List.getD_eq_getElem?_getD]
  by_cases h : i < l.length
  · rw [List.getElem?_eq_getElem h]
    exact hb _ (List.getElem_mem _)
  · rw [List.getElem?_eq_none (by omega)]
    decide

/-- C12: on a destination of at least 16 bytes, copy_and_key terminates
with d[i] = s[i] XOR k[i] for every i in 0..15 and every other byte of d,
like its length, as before. -/
theorem C12_copy_and_key (d s k : List Nat) (hd : 16 ≤ d.length) (hs : s.length = 16)
    (hk : k.length = 16) (hsb : ∀ x ∈ s, x < 256) (hkb : ∀ x ∈ k, x < 256) :
    ∃ d', copy_and_key d s k = some d' ∧ d'.length = d.length ∧
      (∀ i, i < 16 → d'.getD i 0 = s.getD i 0 ^^^ k.getD i 0) ∧
      (∀ i, 16 ≤ i → d'.getD i 0 = d.getD i 0) := by
  refine ⟨_, copy_and_key_iter d s k, ?_, ?_, ?_⟩
  · rw [copy_and_key_sets]; simp
  · intro i hi
    have hbyte : ∀ j, byte (s.getD j 0 ^^^ k.getD j 0) = s.getD j 0 ^^^ k.getD j 0 := fun j =>
      byte_of_lt (xor_lt (getD_lt_of_bytes s hsb j) (getD_lt_of_bytes k hkb j))
    rw [copy_and_key_sets, List.getD_eq_getElem?_getD,
      set4_getElem? _ _ _ _ _ _ (by simp; omega), set4_getElem? _ _ _ _ _ _ (by simp; omega),
      set4_getElem? _ _ _ _ _ _ (by simp; omega), set4_getElem? _ _ _ _ _ _ (by simp; omega)]
    simp only [hbyte]
    interval_cases i <;> simp
  · intro i hi
    rw [copy_and_key_sets, List.getD_eq_getElem?_getD,
      set4_getElem? _ _ _ _ _ _ (by simp; omega), set4_getElem? _ _ _ _ _ _ (by simp; omega),
      set4_getElem? _ _ _ _ _ _ (by simp; omega), set4_getElem? _ _ _ _ _ _ (by simp; omega)]
    have hne : ∀ j, j < 16 → ¬ i = j := fun j hj => by omega
    simp only [hne 0 (by decide), hne 4 (by decide), hne 8 (by decide), hne 12 (by decide),
      hne (0 + 1) (by decide), hne (0 + 2) (by decide), hne (0 + 3) (by decide),
      hne (4 + 1) (by decide), hne (4 + 2) (by decide), hne (4 + 3) (by decide),
      hne (8 + 1) (by decide), hne (8 + 2) (by decide), hne (8 + 3) (by decide),
      hne (12 + 1) (by decide), hne (12 + 2) (by decide), hne (12 + 3) (by decide), if_false,
      List.getD_eq_getElem?_getD]

/-- Witness of C12 on a 20-byte destination. -/
theorem C12_copy_and_key_witness :
    ∃ d', copy_and_key (List.replicate 20 7) (List.range 16) (List.replicate 16 255) = some d' ∧
      d'.length = (List.replicate 20 7).length ∧
      (∀ i, i < 16 → d'.getD i 0 =
        (List.range 16).getD i 0 ^^^ (List.replicate 16 255).getD i 0) ∧
      (∀ i, 16 ≤ i → d'.getD i 0 = (List.replicate 20 7).getD i 0) :=
  C12_copy_and_key (List.replicate 20 7) (List.range 16) (List.replicate 16 255) (by decide)
    (by decide) (by decide) (by decide) (by decide)

theorem xtime_eq : ∀ v, v < 256 → byte (f2 v) = xtime v := by decide!

theorem mixcol_xtime (a b c d : Nat) :
    mixcol a b c d =
      [xtime (s_box a) ^^^ xtime (s_box b) ^^^ s_box b ^^^ s_box c ^^^ s_box d,
       s_box a ^^^ xtime (s_box b) ^^^ xtime (s_box c) ^^^ s_box c ^^^ s_box d,
       s_box a ^^^ s_box b ^^^ xtime (s_box c) ^^^ xtime (s_box d) ^^^ s_box d,
       xtime (s_box a) ^^^ s_box a ^^^ s_box b ^^^ s_box c ^^^ xtime (s_box d)] := by
  have la := s_box_lt a
  have lb := s_box_lt b
  have lc := s_box_lt c
  have ld := s_box_lt d
  have xa := byte_lt (f2 (s_box a))
  have xb := byte_lt (f2 (s_box b))
  have xc := byte_lt (f2 (s_box c))
  have xd := byte_lt (f2 (s_box d))
  unfold mixcol
  rw [byte_of_lt (xor_lt (xor_lt (xor_lt (xor_lt xa xb) lb) lc) ld),
    byte_of_lt (xor_lt (xor_lt (xor_lt (xor_lt la xb) xc) lc) ld),
    byte_of_lt (xor_lt (xor_lt (xor_lt (xor_lt la lb) xc) xd) ld),
    byte_of_lt (xor_lt (xor_lt (xor_lt (xor_lt xa la) lb) lc) xd),
    xtime_eq _ la, xtime_eq _ lb, xtime_eq _ lc, xtime_eq _ ld]

/-- C15: on every 16-byte state and for every column offset i in 0, 4, 8,
12, mix_sub_columns gathers a = s_box(st[i]), b = s_box(st[(i+5) mod 16]),
c = s_box(st[(i+10) mod 16]), d = s_box(st[(i+15) mod 16]) and leaves
dt[i] = 2a ^ 2b ^ b ^ c ^ d, dt[i+1] = a ^ 2b ^ 2c ^ c ^ d,
dt[i+2] = a ^ b ^ 2c ^ 2d ^ d, dt[i+3] = 2a ^ a ^ b ^ c ^ 2d, doubling being
xtime. -/
theorem C15_mix_sub_columns_column (dt st : List Nat) (hdt : dt.length = 16)
    (hst : st.length = 16) (i : Nat) (hi : i ∈ [0, 4, 8, 12]) :
    ∃ dt', mix_sub_columns dt st = some dt' ∧ dt'.length = 16 ∧
      dt'.getD i 0 =
        xtime (s_box (st.getD i 0)) ^^^ xtime (s_box (st.getD ((i + 5) % 16) 0)) ^^^
          s_box (st.getD ((i + 5) % 16) 0) ^^^ s_box (st.getD ((i + 10) % 16) 0) ^^^
          s_box (st.getD ((i + 15) % 16) 0) ∧
      dt'.getD (i + 1) 0 =
        s_box (st.getD i 0) ^^^ xtime (s_box (st.getD ((i + 5) % 16) 0)) ^^^
          xtime (s_box (st.getD ((i + 10) % 16) 0)) ^^^ s_box (st.getD ((i + 10) % 16) 0) ^^^
          s_box (st.getD ((i + 15) % 16) 0) ∧
      dt'.getD (i + 2) 0 =
        s_box (st.getD i 0) ^^^ s_box (st.getD ((i + 5) % 16) 0) ^^^
          xtime (s_box (st.getD ((i + 10) % 16) 0)) ^^^
          xtime (s_box (st.getD ((i + 15) % 16) 0)) ^^^ s_box (st.getD ((i + 15) % 16) 0) ∧
      dt'.getD (i + 3) 0 =
        xtime (s_box (st.getD i 0)) ^^^ s_box (st.getD i 0) ^^^
          s_box (st.getD ((i + 5) % 16) 0) ^^^ s_box (st.getD ((i + 10) % 16) 0) ^^^
          xtime (s_box (st.getD ((i + 15) % 16) 0)) := by
  obtain ⟨a0, a1, a2, a3, a4, a5, a6, a7, a8, a9, a10, a11, a12, a13, a14, a15, rfl⟩ := len16 st hst
  obtain ⟨d0, d1, d2, d3, d4, d5, d6, d7, d8, d9, d10, d11, d12, d13, d14, d15, rfl⟩ := len16 dt hdt
  refine ⟨_, mix_sub_columns_iter _ _, ?_⟩
  rw [mix_sub_columns_unroll, mixcol_xtime, mixcol_xtime, mixcol_xtime, mixcol_xtime]
  simp only [List.mem_cons, List.mem_singleton, List.not_mem_nil, or_false] at hi
  rcases hi with rfl | rfl | rfl | rfl <;> simp

/-- Witness of C15 at column offset 8 of the state 0, 1, ..., 15. -/
theorem C15_mix_sub_columns_column_witness :
    ∃ dt', mix_sub_columns (List.replicate 16 0) (List.range 16) = some dt' ∧ dt'.length = 16 ∧
      dt'.getD 8 0 =
        xtime (s_box ((List.range 16).getD 8 0)) ^^^
          xtime (s_box ((List.range 16).getD ((8 + 5) % 16) 0)) ^^^
          s_box ((List.range 16).getD ((8 + 5) % 16) 0) ^^^
          s_box ((List.range 16).getD ((8 + 10) % 16) 0) ^^^
          s_box ((List.range 16).getD ((8 + 15) % 16) 0) ∧
      dt'.getD (8 + 1) 0 =
        s_box ((List.range 16).getD 8 0) ^^^
          xtime (s_box ((List.range 16).getD ((8 + 5) % 16) 0)) ^^^
          xtime (s_box ((List.range 16).getD ((8 + 10) % 16) 0)) ^^^
          s_box ((List.range 16).getD ((8 + 10) % 16) 0) ^^^
          s_box ((List.range 16).getD ((8 + 15) % 16) 0) ∧
      dt'.getD (8 + 2) 0 =
        s_box ((List.range 16).getD 8 0) ^^^ s_box ((List.range 16).getD ((8 + 5) % 16) 0) ^^^
          xtime (s_box ((List.range 16).getD ((8 + 10) % 16) 0)) ^^^
          xtime (s_box ((List.range 16).getD ((8 + 15) % 16) 0)) ^^^
          s_box ((List.range 16).getD ((8 + 15) % 16) 0) ∧
      dt'.getD (8 + 3) 0 =
        xtime (s_box ((List.range 16).getD 8 0)) ^^^ s_box ((List.range 16).getD 8 0) ^^^
          s_box ((List.range 16).getD ((8 + 5) % 16) 0) ^^^
          s_box ((List.range 16).getD ((8 + 10) % 16) 0) ^^^
          xtime (s_box ((List.range 16).getD ((8 + 15) % 16) 0)) :=
  C15_mix_sub_columns_column (List.replicate 16 0) (List.range 16) (by decide) (by decide) 8
    (by decide)

theorem getD_set_eq (l : List Nat) (i v : Nat) (h : i < l.length) : (l.set i v).getD i 0 = v := by
  simp [List.getD_eq_getElem?_getD, List.getElem?_set_self, h]

theorem rcAt_table : ∀ m, m < 10 →
    rcAt m = [0x01, 0x02, 0x04, 0x08, 0x10, 0x20, 0x40, 0x80, 0x1B, 0x36].getD m 0 := by
  decide

/-- The expansion loop of set_key runs its body exactly 40 times. -/
theorem set_key_expand_turns (ks : List Nat) (hlen : 176 ≤ ks.length)
    (hb : ∀ x ∈ ks.take 16, x < 256) :
    set_key_expand ks = some (set_key_body^[40] (set_key_init ks)).key_sched := by
  unfold set_key_expand
  rw [while_loop_iterate _ _ 40 256 _ (by decide)]
  · rfl
  · intro k hk
    have := (set_key_iterate ks hlen hb k (by omega)).1
    simp only [this, hi_eq, decide_eq_true_eq]
    omega
  · have := (set_key_iterate ks hlen hb 40 (by omega)).1
    simp only [this, hi_eq]
    decide

/-- First byte and round constant written by one turn of the loop. -/
theorem set_key_body_first (s : KeyState) (n : Nat) (hn : n < 40)
    (hcc : s.cc = 16 + 4 * n) (hrc : s.rc < 256)
    (hnext : s.next = 16 + 16 * ((n + 3) / 4)) (hlen : 176 ≤ s.key_sched.length)
    (hb : ∀ x ∈ s.key_sched.take (16 + 4 * n), x < 256) :
    (s.cc % 16 = 0 → (set_key_body s).rc = byte (f2 s.rc) ∧
      (set_key_body s).key_sched.getD s.cc 0 =
        s.key_sched.getD (s.cc - 16) 0 ^^^ (s_box (s.key_sched.getD (s.cc - 3) 0) ^^^ s.rc)) ∧
    (s.cc % 16 ≠ 0 → (set_key_body s).rc = s.rc ∧
      (set_key_body s).key_sched.getD s.cc 0 =
        s.key_sched.getD (s.cc - 16) 0 ^^^ s.key_sched.getD (s.cc - 4) 0) := by
  obtain ⟨cc, rc, next, ks⟩ := s
  simp only at hcc hrc hnext hlen hb
  subst hcc hnext
  have htt : byte (16 + 4 * n + 256 - 16) = 4 * n := by unfold byte; omega
  have e16 : 16 + 4 * n - 16 = 4 * n := by omega
  have e3 : 16 + 4 * n - 3 = 16 + 4 * n - 4 + 1 := by omega
  have b0 : ∀ i, i < 16 + 4 * n → ks.getD i 0 < 256 := fun i hi =>
    getD_lt_of_mem_take ks i _ hi (by omega) hb
  refine ⟨?_, ?_⟩
  · intro hc
    simp only at hc
    have e1 : 16 + 4 * n = 16 + 16 * ((n + 3) / 4) := by omega
    simp only [set_key_body, if_pos e1, htt, Nat.add_zero, e16, e3, true_and]
    simp (disch := omega) only [getD_set_ne]
    rw [getD_set_eq _ _ _ (by omega), byte_of_lt (xor_lt (s_box_lt _) hrc),
      byte_of_lt (xor_lt (b0 _ (by omega)) (xor_lt (s_box_lt _) hrc))]
  · intro hc
    simp only at hc
    have e1 : 16 + 4 * n ≠ 16 + 16 * ((n + 3) / 4) := by omega
    simp only [set_key_body, if_neg e1, htt, Nat.add_zero, e16, true_and]
    simp (disch := omega) only [getD_set_ne]
    rw [getD_set_eq _ _ _ (by omega), byte_of_lt (xor_lt (b0 _ (by omega)) (b0 _ (by omega)))]

/-- C16: the expansion loop of set_key runs 40 turns from rc = 1; the turn
at offset cc tests cc == next exactly when cc is one of 16, 32, ..., 160,
and then XORs into the first byte of round-key block n = cc / 16 the constant
rc = 2^(n-1) in GF(2^8), entry n - 1 of 01 02 04 08 10 20 40 80 1B 36, and
doubles rc; every other turn neither uses nor changes rc. -/
theorem C16_round_constant (key_sched : List Nat) (hks : key_sched.length = 240)
    (hb : ∀ x ∈ key_sched.take 16, x < 256) (k : Nat) (hk : k < 40) :
    set_key_expand key_sched = some (set_key_body^[40] (set_key_init key_sched)).key_sched ∧
    (set_key_init key_sched).rc = 1 ∧
    (set_key_body^[k] (set_key_init key_sched)).cc = 16 + 4 * k ∧
    ((set_key_body^[k] (set_key_init key_sched)).cc =
        (set_key_body^[k] (set_key_init key_sched)).next ↔
      (set_key_body^[k] (set_key_init key_sched)).cc % 16 = 0) ∧
    ((set_key_body^[k] (set_key_init key_sched)).cc % 16 = 0 →
      (set_key_body^[k] (set_key_init key_sched)).rc =
        gfPow 2 ((set_key_body^[k] (set_key_init key_sched)).cc / 16 - 1) ∧
      (set_key_body^[k] (set_key_init key_sched)).rc =
        [0x01, 0x02, 0x04, 0x08, 0x10, 0x20, 0x40, 0x80, 0x1B, 0x36].getD
          ((set_key_body^[k] (set_key_init key_sched)).cc / 16 - 1) 0 ∧
      (set_key_body^[k + 1] (set_key_init key_sched)).rc =
        byte (f2 (set_key_body^[k] (set_key_init key_sched)).rc) ∧
      (set_key_body^[k + 1] (set_key_init key_sched)).key_sched.getD (16 + 4 * k) 0 =
        (set_key_body^[k] (set_key_init key_sched)).key_sched.getD (16 + 4 * k - 16) 0 ^^^
          (s_box ((set_key_body^[k] (set_key_init key_sched)).key_sched.getD
              (16 + 4 * k - 3) 0) ^^^
            (set_key_body^[k] (set_key_init key_sched)).rc)) ∧
    ((set_key_body^[k] (set_key_init key_sched)).cc % 16 ≠ 0 →
      (set_key_body^[k + 1] (set_key_init key_sched)).rc =
        (set_key_body^[k] (set_key_init key_sched)).rc ∧
      (set_key_body^[k + 1] (set_key_init key_sched)).key_sched.getD (16 + 4 * k) 0 =
        (set_key_body^[k] (set_key_init key_sched)).key_sched.getD (16 + 4 * k - 16) 0 ^^^
          (set_key_body^[k] (set_key_init key_sched)).key_sched.getD (16 + 4 * k - 4) 0) := by
  refine ⟨set_key_expand_turns key_sched (by omega) hb, ?_⟩
  obtain ⟨h1, h2, h3, h4, -, h6, -⟩ := set_key_iterate key_sched (by omega) hb k (by omega)
  rw [Function.iterate_succ_apply' set_key_body k (set_key_init key_sched)]
  have hinit : (set_key_init key_sched).rc = 1 := rfl
  refine ⟨hinit, ?_⟩
  clear hinit
  generalize set_key_body^[k] (set_key_init key_sched) = s at *
  have hrlt : s.rc < 256 := by
    rw [h2]
    by_cases h : (k + 3) / 4 < 10
    · exact (rcAt_eq _ h).2
    · have : (k + 3) / 4 = 10 := by omega
      rw [this, rcAt_succ]; exact byte_lt _
  obtain ⟨f1, f2⟩ := set_key_body_first s k hk h1 hrlt h3 (by omega) h6
  rw [h1] at f1 f2
  refine ⟨h1, ?_, ?_, ?_⟩
  · rw [h1, h3]; omega
  · intro hc
    rw [h1] at hc
    have e : (k + 3) / 4 = (16 + 4 * k) / 16 - 1 := by omega
    have hlt : (k + 3) / 4 < 10 := by omega
    obtain ⟨g1, g2⟩ := f1 hc
    refine ⟨?_, ?_, g1, g2⟩
    · rw [h1, h2, (rcAt_eq _ hlt).1, e]
    · rw [h1, h2, rcAt_table _ hlt, e]
  · intro hc
    rw [h1] at hc
    exact f2 hc

/-- Witness of C16 at turn 32 (offset 144, block 9) of a zeroed key_sched. -/
theorem C16_round_constant_witness :
    (set_key_init (List.replicate 240 0)).rc = 1 ∧
      (set_key_body^[32] (set_key_init (List.replicate 240 0))).cc = 16 + 4 * 32 :=
  ⟨(C16_round_constant (List.replicate 240 0) (by decide) (by decide) 32 (by decide)).2.1,
    (C16_round_constant (List.replicate 240 0) (by decide) (by decide) 32 (by decide)).2.2.1⟩

/-- C17: set_key, and encrypt through it, leaves key_sched[176..239] and the
length of key_sched as they were, and the round sequence of encrypt reads
nothing of key_sched beyond index 175: run on any key_sched with the same
first 176 bytes it writes the same ciphertext. -/
theorem C17_schedule_frame (keytype : Int) (key_sched plain cipher : List Nat)
    (hks : key_sched.length = 240) (hp : plain.length = 16) (hpb : ∀ x ∈ plain, x < 256)
    (hc : cipher.length = 16) :
    ∃ ks' ct, set_key key_sched keytype = some (ks', 0) ∧
      encrypt key_sched keytype plain cipher = some (ks', ct, 0) ∧
      ks'.length = 240 ∧
      (∀ i, 176 ≤ i → ks'.getD i 0 = key_sched.getD i 0) ∧
      ∀ ks2 : List Nat, ks2.take 176 = ks'.take 176 →
        encrypt_rounds ks2 plain cipher = some ct := by
  obtain ⟨ks', e1, e2, e3, e4, -, e6⟩ := set_key_eq key_sched keytype (by omega)
  have hr := encrypt_rounds_eq ks' _ plain cipher e3 (by omega) (by rw [← e3]; exact e4) hp hpb hc
  refine ⟨ks', Cipher (if keytype = 1 then d_key else u_key) plain, e1, ?_, e2.trans hks,
    ?_, ?_⟩
  · simp only [encrypt, e1, Option.some_bind, hr, Option.map_some']
  · intro i hi
    have h := e6 176 (by omega)
    have a := getD_drop ks' 176 (i - 176)
    have b := getD_drop key_sched 176 (i - 176)
    rw [h] at a
    rw [show 176 + (i - 176) = i by omega] at a b
    rw [← a, ← b]
  · intro ks2 h2
    have hl : (ks2.take 176).length = 176 := by
      rw [h2, List.length_take]; omega
    have hl2 : 176 ≤ ks2.length := by
      rw [List.length_take] at hl; omega
    exact encrypt_rounds_eq ks2 _ plain cipher (h2.trans e3) hl2 (by rw [← e3]; exact e4) hp hpb hc

/-- Witness of C17 at keytype 0 on a key_sched of sevens. -/
theorem C17_schedule_frame_witness :
    ∃ ks' ct, set_key (List.replicate 240 7) 0 = some (ks', 0) ∧
      encrypt (List.replicate 240 7) 0 (List.range 16) (List.replicate 16 0) =
        some (ks', ct, 0) ∧
      ks'.length = 240 ∧
      (∀ i, 176 ≤ i → ks'.getD i 0 = (List.replicate 240 7).getD i 0) ∧
      ∀ ks2 : List Nat, ks2.take 176 = ks'.take 176 →
        encrypt_rounds ks2 (List.range 16) (List.replicate 16 0) = some ct :=
  C17_schedule_frame 0 (List.replicate 240 7) (List.range 16) (List.replicate 16 0) (by decide)
    (by decide) (by decide) (by decide)

theorem f2_form : ∀ v, v < 256 →
    byte (f2 v) = ((v <<< 1) % 256) ^^^ (if v.testBit 7 then 0x1B else 0) := by decide!

theorem xor_mod_256 (a b : Nat) : (a ^^^ b) % 256 = a % 256 ^^^ b % 256 := by
  apply Nat.eq_of_testBit_eq
  intro i
  have h : (256 : Nat) = 2 ^ 8 := by norm_num
  rw [h]
  simp only [Nat.testBit_mod_two_pow, Nat.testBit_xor]
  by_cases hi : i < 8 <;> simp [hi]

theorem shiftLeft_one_xor (a b : Nat) : (a ^^^ b) <<< 1 = a <<< 1 ^^^ b <<< 1 := by
  apply Nat.eq_of_testBit_eq
  intro i
  simp only [Nat.testBit_shiftLeft, Nat.testBit_xor]
  by_cases hi : 1 ≤ i <;> simp [hi]

theorem f2_xor (u v : Nat) (hu : u < 256) (hv : v < 256) :
    byte (f2 (u ^^^ v)) = byte (f2 u) ^^^ byte (f2 v) := by
  rw [f2_form _ hu, f2_form _ hv, f2_form _ (xor_lt hu hv), Nat.testBit_xor, shiftLeft_one_xor,
    xor_mod_256]
  haveI : Std.Associative (α := Nat) (fun x y => x ^^^ y) := ⟨Nat.xor_assoc⟩
  haveI : Std.Commutative (α := Nat) (fun x y => x ^^^ y) := ⟨Nat.xor_comm⟩
  cases u.testBit 7 <;> cases v.testBit 7 <;>
    simp only [Bool.xor_false, Bool.xor_true, Bool.not_false, Bool.not_true, Bool.false_eq_true,
      if_false, if_true, Nat.xor_zero]
  · ac_rfl
  · ac_rfl
  · have e : ∀ a b : Nat, a ^^^ b = a ^^^ 27 ^^^ (b ^^^ 27) := by
      intro a b
      have h : a ^^^ 27 ^^^ (b ^^^ 27) = a ^^^ b ^^^ (27 ^^^ 27) := by ac_rfl
      rw [h, Nat.xor_self, Nat.xor_zero]
    exact e _ _

theorem xt_xor (u v : Nat) : xt (u ^^^ v) = xt u ^^^ xt v := by
  unfold xt
  rw [xor_mod_256]
  exact f2_xor _ _ (Nat.mod_lt _ (by decide)) (Nat.mod_lt _ (by decide))

theorem xt_of_lt {v : Nat} (h : v < 256) : byte (f2 v) = xt v := by
  unfold xt
  rw [Nat.mod_eq_of_lt h]

theorem m9_xor (a b : Nat) : m9 (a ^^^ b) = m9 a ^^^ m9 b := by
  simp only [m9, xt_xor]
  haveI : Std.Associative (α := Nat) (fun x y => x ^^^ y) := ⟨Nat.xor_assoc⟩
  haveI : Std.Commutative (α := Nat) (fun x y => x ^^^ y) := ⟨Nat.xor_comm⟩
  ac_rfl

theorem m11_xor (a b : Nat) : m11 (a ^^^ b) = m11 a ^^^ m11 b := by
  simp only [m11, xt_xor]
  haveI : Std.Associative (α := Nat) (fun x y => x ^^^ y) := ⟨Nat.xor_assoc⟩
  haveI : Std.Commutative (α := Nat) (fun x y => x ^^^ y) := ⟨Nat.xor_comm⟩
  ac_rfl

theorem m13_xor (a b : Nat) : m13 (a ^^^ b) = m13 a ^^^ m13 b := by
  simp only [m13, xt_xor]
  haveI : Std.Associative (α := Nat) (fun x y => x ^^^ y) := ⟨Nat.xor_assoc⟩
  haveI : Std.Commutative (α := Nat) (fun x y => x ^^^ y) := ⟨Nat.xor_comm⟩
  ac_rfl

theorem m14_xor (a b : Nat) : m14 (a ^^^ b) = m14 a ^^^ m14 b := by
  simp only [m14, xt_xor]
  haveI : Std.Associative (α := Nat) (fun x y => x ^^^ y) := ⟨Nat.xor_assoc⟩
  haveI : Std.Commutative (α := Nat) (fun x y => x ^^^ y) := ⟨Nat.xor_comm⟩
  ac_rfl

/-- The product of the inverse matrix and the matrix of MixColumns, entry by
entry on one byte: 0e·02 + 0b + 0d + 09·03 = 1 and the three others are 0. -/
theorem inv_mix_entries : ∀ x, x < 256 →
    m14 (xt x) ^^^ m11 x ^^^ m13 x ^^^ m9 (xt x) ^^^ m9 x = x ∧
    m14 (xt x) ^^^ m14 x ^^^ m11 (xt x) ^^^ m13 x ^^^ m9 x = 0 ∧
    m14 x ^^^ m11 (xt x) ^^^ m11 x ^^^ m13 (xt x) ^^^ m9 x = 0 ∧
    m14 x ^^^ m11 x ^^^ m13 (xt x) ^^^ m13 x ^^^ m9 (xt x) = 0 := by decide!

theorem invrow_mixrow (u v w z : Nat) (hu : u < 256) (hv : v < 256) (hw : w < 256)
    (hz : z < 256) :
    invrow (mixrow u v w z) (mixrow v w z u) (mixrow w z u v) (mixrow z u v w) = u := by
  have key : invrow (mixrow u v w z) (mixrow v w z u) (mixrow w z u v) (mixrow z u v w) =
      (m14 (xt u) ^^^ m11 u ^^^ m13 u ^^^ m9 (xt u) ^^^ m9 u) ^^^
      ((m14 (xt v) ^^^ m14 v ^^^ m11 (xt v) ^^^ m13 v ^^^ m9 v) ^^^
      ((m14 w ^^^ m11 (xt w) ^^^ m11 w ^^^ m13 (xt w) ^^^ m9 w) ^^^
      (m14 z ^^^ m11 z ^^^ m13 (xt z) ^^^ m13 z ^^^ m9 (xt z)))) := by
    simp only [invrow, mixrow, m14_xor, m11_xor, m13_xor, m9_xor]
    haveI : Std.Associative (α := Nat) (fun x y => x ^^^ y) := ⟨Nat.xor_assoc⟩
    haveI : Std.Commutative (α := Nat) (fun x y => x ^^^ y) := ⟨Nat.xor_comm⟩
    ac_rfl
  rw [key, (inv_mix_entries u hu).1, (inv_mix_entries v hv).2.1, (inv_mix_entries w hw).2.2.1,
    (inv_mix_entries z hz).2.2.2]
  simp

theorem mixcol_rows (a b c d : Nat) :
    mixcol a b c d =
      [mixrow (s_box a) (s_box b) (s_box c) (s_box d),
       mixrow (s_box b) (s_box c) (s_box d) (s_box a),
       mixrow (s_box c) (s_box d) (s_box a) (s_box b),
       mixrow (s_box d) (s_box a) (s_box b) (s_box c)] := by
  have la := s_box_lt a
  have lb := s_box_lt b
  have lc := s_box_lt c
  have ld := s_box_lt d
  have xa := byte_lt (f2 (s_box a))
  have xb := byte_lt (f2 (s_box b))
  have xc := byte_lt (f2 (s_box c))
  have xd := byte_lt (f2 (s_box d))
  unfold mixcol
  rw [byte_of_lt (xor_lt (xor_lt (xor_lt (xor_lt xa xb) lb) lc) ld),
    byte_of_lt (xor_lt (xor_lt (xor_lt (xor_lt la xb) xc) lc) ld),
    byte_of_lt (xor_lt (xor_lt (xor_lt (xor_lt la lb) xc) xd) ld),
    byte_of_lt (xor_lt (xor_lt (xor_lt (xor_lt xa la) lb) lc) xd),
    xt_of_lt la, xt_of_lt lb, xt_of_lt lc, xt_of_lt ld]
  simp only [mixrow, List.cons.injEq, and_true, true_and]
  haveI : Std.Associative (α := Nat) (fun x y => x ^^^ y) := ⟨Nat.xor_assoc⟩
  haveI : Std.Commutative (α := Nat) (fun x y => x ^^^ y) := ⟨Nat.xor_comm⟩
  refine ⟨by ac_rfl, by ac_rfl, by ac_rfl⟩

theorem s_box_inj (x y : Nat) (hx : x < 256) (hy : y < 256) (h : s_box x = s_box y) : x = y := by
  have hn : s_fwd.Nodup := by decide!
  have hl : s_fwd.length = 256 := by decide
  have hx' : x < s_fwd.length := by omega
  have hy' : y < s_fwd.length := by omega
  have e : s_fwd[x] = s_fwd[y] := by
    simpa [s_box, List.getD_eq_getElem?_getD, List.getElem?_eq_getElem hx',
      List.getElem?_eq_getElem hy'] using h
  exact (hn.getElem_inj_iff).1 e

theorem mixcol_inj (a b c d a' b' c' d' : Nat) (ha : a < 256) (hb : b < 256) (hc : c < 256)
    (hd : d < 256) (ha' : a' < 256) (hb' : b' < 256) (hc' : c' < 256) (hd' : d' < 256)
    (h : mixcol a b c d = mixcol a' b' c' d') : a = a' ∧ b = b' ∧ c = c' ∧ d = d' := by
  rw [mixcol_rows, mixcol_rows] at h
  simp only [List.cons.injEq, and_true] at h
  obtain ⟨h0, h1, h2, h3⟩ := h
  have ra := invrow_mixrow _ _ _ _ (s_box_lt a) (s_box_lt b) (s_box_lt c) (s_box_lt d)
  have rb := invrow_mixrow _ _ _ _ (s_box_lt b) (s_box_lt c) (s_box_lt d) (s_box_lt a)
  have rc := invrow_mixrow _ _ _ _ (s_box_lt c) (s_box_lt d) (s_box_lt a) (s_box_lt b)
  have rd := invrow_mixrow _ _ _ _ (s_box_lt d) (s_box_lt a) (s_box_lt b) (s_box_lt c)
  rw [h0, h1, h2, h3] at ra rb rc rd
  rw [invrow_mixrow _ _ _ _ (s_box_lt a') (s_box_lt b') (s_box_lt c') (s_box_lt d')] at ra
  rw [invrow_mixrow _ _ _ _ (s_box_lt b') (s_box_lt c') (s_box_lt d') (s_box_lt a')] at rb
  rw [invrow_mixrow _ _ _ _ (s_box_lt c') (s_box_lt d') (s_box_lt a') (s_box_lt b')] at rc
  rw [invrow_mixrow _ _ _ _ (s_box_lt d') (s_box_lt a') (s_box_lt b') (s_box_lt c')] at rd
  exact ⟨s_box_inj _ _ ha ha' ra.symm, s_box_inj _ _ hb hb' rb.symm, s_box_inj _ _ hc hc' rc.symm,
    s_box_inj _ _ hd hd' rd.symm⟩

theorem AddRoundKey_inj (s s' k : List Nat) (hs : s.length = 16) (hs' : s'.length = 16)
    (hk : k.length = 16) (h : AddRoundKey s k = AddRoundKey s' k) : s = s' := by
  obtain ⟨a0, a1, a2, a3, a4, a5, a6, a7, a8, a9, a10, a11, a12, a13, a14, a15, rfl⟩ := len16 s hs
  obtain ⟨b0, b1, b2, b3, b4, b5, b6, b7, b8, b9, b10, b11, b12, b13, b14, b15, rfl⟩ :=
    len16 s' hs'
  obtain ⟨k0, k1, k2, k3, k4, k5, k6, k7, k8, k9, k10, k11, k12, k13, k14, k15, rfl⟩ := len16 k hk
  simp only [AddRoundKey, List.zipWith, List.cons.injEq, Nat.xor_left_inj, and_true] at h
  simp only [List.cons.injEq, and_true]
  exact h

theorem round_core_inj (s s' : List Nat) (hs : s.length = 16) (hs' : s'.length = 16)
    (hb : ∀ x ∈ s, x < 256) (hb' : ∀ x ∈ s', x < 256)
    (h : MixColumns (ShiftRows (SubBytes s)) = MixColumns (ShiftRows (SubBytes s'))) :
    s = s' := by
  obtain ⟨a0, a1, a2, a3, a4, a5, a6, a7, a8, a9, a10, a11, a12, a13, a14, a15, rfl⟩ := len16 s hs
  obtain ⟨b0, b1, b2, b3, b4, b5, b6, b7, b8, b9, b10, b11, b12, b13, b14, b15, rfl⟩ :=
    len16 s' hs'
  simp only [List.mem_cons, List.mem_singleton, forall_eq_or_imp, forall_eq, List.not_mem_nil,
    false_implies, implies_true, and_true] at hb hb'
  obtain ⟨p0, p1, p2, p3, p4, p5, p6, p7, p8, p9, p10, p11, p12, p13, p14, p15⟩ := hb
  obtain ⟨q0, q1, q2, q3, q4, q5, q6, q7, q8, q9, q10, q11, q12, q13, q14, q15⟩ := hb'
  rw [round_unroll, round_unroll,
    MixColumn_eq _ _ _ _ p0 p5 p10 p15, MixColumn_eq _ _ _ _ p4 p9 p14 p3,
    MixColumn_eq _ _ _ _ p8 p13 p2 p7, MixColumn_eq _ _ _ _ p12 p1 p6 p11,
    MixColumn_eq _ _ _ _ q0 q5 q10 q15, MixColumn_eq _ _ _ _ q4 q9 q14 q3,
    MixColumn_eq _ _ _ _ q8 q13 q2 q7, MixColumn_eq _ _ _ _ q12 q1 q6 q11] at h
  have hl : ∀ a b c d : Nat, (mixcol a b c d).length = 4 := fun _ _ _ _ => rfl
  have h3 := List.append_inj h (by simp only [List.length_append, hl])
  have h2 := List.append_inj h3.1 (by simp only [List.length_append, hl])
  have h1 := List.append_inj h2.1 (by simp only [hl])
  obtain ⟨e0, e5, e10, e15⟩ := mixcol_inj _ _ _ _ _ _ _ _ p0 p5 p10 p15 q0 q5 q10 q15 h1.1
  obtain ⟨e4, e9, e14, e3⟩ := mixcol_inj _ _ _ _ _ _ _ _ p4 p9 p14 p3 q4 q9 q14 q3 h1.2
  obtain ⟨e8, e13, e2, e7⟩ := mixcol_inj _ _ _ _ _ _ _ _ p8 p13 p2 p7 q8 q13 q2 q7 h2.2
  obtain ⟨e12, e1, e6, e11⟩ := mixcol_inj _ _ _ _ _ _ _ _ p12 p1 p6 p11 q12 q1 q6 q11 h3.2
  rw [e0, e1, e2, e3, e4, e5, e6, e7, e8, e9, e10, e11, e12, e13, e14, e15]

theorem final_core_inj (s s' : List Nat) (hs : s.length = 16) (hs' : s'.length = 16)
    (hb : ∀ x ∈ s, x < 256) (hb' : ∀ x ∈ s', x < 256)
    (h : ShiftRows (SubBytes s) = ShiftRows (SubBytes s')) : s = s' := by
  rw [← shift_sub_rows_eq s hs hb, ← shift_sub_rows_eq s' hs' hb'] at h
  obtain ⟨a0, a1, a2, a3, a4, a5, a6, a7, a8, a9, a10, a11, a12, a13, a14, a15, rfl⟩ := len16 s hs
  obtain ⟨b0, b1, b2, b3, b4, b5, b6, b7, b8, b9, b10, b11, b12, b13, b14, b15, rfl⟩ :=
    len16 s' hs'
  simp only [List.mem_cons, List.mem_singleton, forall_eq_or_imp, forall_eq, List.not_mem_nil,
    false_implies, implies_true, and_true] at hb hb'
  obtain ⟨p0, p1, p2, p3, p4, p5, p6, p7, p8, p9, p10, p11, p12, p13, p14, p15⟩ := hb
  obtain ⟨q0, q1, q2, q3, q4, q5, q6, q7, q8, q9, q10, q11, q12, q13, q14, q15⟩ := hb'
  simp [shift_sub_rows] at h
  obtain ⟨e0, e5, e10, e15, e4, e9, e14, e3, e8, e13, e2, e7, e12, e1, e6, e11⟩ := h
  rw [s_box_inj _ _ p0 q0 e0, s_box_inj _ _ p1 q1 e1, s_box_inj _ _ p2 q2 e2,
    s_box_inj _ _ p3 q3 e3, s_box_inj _ _ p4 q4 e4, s_box_inj _ _ p5 q5 e5,
    s_box_inj _ _ p6 q6 e6, s_box_inj _ _ p7 q7 e7, s_box_inj _ _ p8 q8 e8,
    s_box_inj _ _ p9 q9 e9, s_box_inj _ _ p10 q10 e10, s_box_inj _ _ p11 q11 e11,
    s_box_inj _ _ p12 q12 e12, s_box_inj _ _ p13 q13 e13, s_box_inj _ _ p14 q14 e14,
    s_box_inj _ _ p15 q15 e15]

theorem RoundKey_length (W : List Nat) (hW : W.length = 176) (r : Nat) (hr : r ≤ 10) :
    (RoundKey W r).length = 16 := by
  rw [RoundKey, List.length_take, List.length_drop]; omega

theorem rounds_inj (W : List Nat) (hW : W.length = 176) (hWb : ∀ x ∈ W, x < 256) (n : Nat) :
    ∀ (r : Nat) (s s' : List Nat), r + n ≤ 10 → s.length = 16 → s'.length = 16 →
      (∀ x ∈ s, x < 256) → (∀ x ∈ s', x < 256) →
      (List.range' r n).foldl (Round W) s = (List.range' r n).foldl (Round W) s' →
      ((List.range' r n).foldl (Round W) s).length = 16 ∧
      (∀ x ∈ (List.range' r n).foldl (Round W) s, x < 256) ∧
      ((List.range' r n).foldl (Round W) s').length = 16 ∧
      (∀ x ∈ (List.range' r n).foldl (Round W) s', x < 256) ∧ s = s' := by
  induction n with
  | zero => intro r s s' _ h1 h2 h3 h4 h; exact ⟨h1, h3, h2, h4, h⟩
  | succ n ih =>
    intro r s s' hr h1 h2 h3 h4 h
    rw [List.range'_succ, List.foldl_cons, List.foldl_cons] at h
    rw [List.range'_succ, List.foldl_cons, List.foldl_cons]
    obtain ⟨l1, l2⟩ := Round_facts W s hW hWb r (by omega) h1 h3
    obtain ⟨l3, l4⟩ := Round_facts W s' hW hWb r (by omega) h2 h4
    obtain ⟨g1, g2, g3, g4, g5⟩ := ih (r + 1) _ _ (by omega) l1 l3 l2 l4 h
    refine ⟨g1, g2, g3, g4, ?_⟩
    obtain ⟨-, m2, -⟩ := mix_sub_columns_eq (List.replicate 16 0) s (by simp) h1 h3
    obtain ⟨-, m2', -⟩ := mix_sub_columns_eq (List.replicate 16 0) s' (by simp) h2 h4
    exact round_core_inj s s' h1 h2 h3 h4
      (AddRoundKey_inj _ _ _ m2 m2' (RoundKey_length W hW r (by omega)) g5)

/-- The reference cipher is injective in the input block. -/
theorem Cipher_inj (key p p' : List Nat) (hW : (KeyExpansion key).length = 176)
    (hWb : ∀ x ∈ KeyExpansion key, x < 256) (hp : p.length = 16) (hp' : p'.length = 16)
    (hb : ∀ x ∈ p, x < 256) (hb' : ∀ x ∈ p', x < 256) (h : Cipher key p = Cipher key p') :
    p = p' := by
  unfold Cipher at h
  simp only at h
  have k0 := RoundKey_length _ hW 0 (by omega)
  have k10 := RoundKey_length _ hW 10 (by omega)
  have kb : ∀ r, ∀ x ∈ RoundKey (KeyExpansion key) r, x < 256 := fun r x hx =>
    hWb x (List.mem_of_mem_drop (List.mem_of_mem_take hx))
  have a1 := AddRoundKey_length _ _ hp k0
  have a1' := AddRoundKey_length _ _ hp' k0
  have a2 := AddRoundKey_lt _ _ hb (kb 0)
  have a2' := AddRoundKey_lt _ _ hb' (kb 0)
  have inv : ∀ n r (s : List Nat), r + n ≤ 10 → s.length = 16 → (∀ x ∈ s, x < 256) →
      ((List.range' r n).foldl (Round (KeyExpansion key)) s).length = 16 ∧
        ∀ x ∈ (List.range' r n).foldl (Round (KeyExpansion key)) s, x < 256 := by
    intro n
    induction n with
    | zero => intro r s _ h1 h2; exact ⟨h1, h2⟩
    | succ n ih =>
      intro r s hr h1 h2
      obtain ⟨l1, l2⟩ := Round_facts _ s hW hWb r (by omega) h1 h2
      rw [List.range'_succ, List.foldl_cons]
      exact ih (r + 1) _ (by omega) l1 l2
  obtain ⟨i1, i2⟩ := inv 9 1 _ (by omega) a1 a2
  obtain ⟨i1', i2'⟩ := inv 9 1 _ (by omega) a1' a2'
  have f1 : (ShiftRows (SubBytes ((List.range' 1 9).foldl (Round (KeyExpansion key))
      (AddRoundKey p (RoundKey (KeyExpansion key) 0))))).length = 16 := by
    rw [← shift_sub_rows_eq _ i1 i2, shift_sub_rows_length]; exact i1
  have f1' : (ShiftRows (SubBytes ((List.range' 1 9).foldl (Round (KeyExpansion key))
      (AddRoundKey p' (RoundKey (KeyExpansion key) 0))))).length = 16 := by
    rw [← shift_sub_rows_eq _ i1' i2', shift_sub_rows_length]; exact i1'
  have h1 := AddRoundKey_inj _ _ _ f1 f1' k10 h
  have h2 := final_core_inj _ _ i1 i1' i2 i2' h1
  have h3 := (rounds_inj _ hW hWb 9 1 _ _ (by omega) a1 a1' a2 a2' h2).2.2.2.2
  exact AddRoundKey_inj _ _ _ hp hp' k0 h3

/-- C18: for every keytype encrypt is injective in the plaintext: two
16-byte plaintexts for which encrypt writes the same ciphertext are equal,
whatever key_sched and the cipher buffers held before. -/
theorem C18_encrypt_injective (keytype : Int) (ks1 ks2 p1 p2 c1 c2 : List Nat)
    (h1 : ks1.length = 240) (h2 : ks2.length = 240) (hp1 : p1.length = 16)
    (hp2 : p2.length = 16) (hb1 : ∀ x ∈ p1, x < 256) (hb2 : ∀ x ∈ p2, x < 256)
    (hc1 : c1.length = 16) (hc2 : c2.length = 16)
    (h : (encrypt ks1 keytype p1 c1).map (fun r => r.2.1) =
      (encrypt ks2 keytype p2 c2).map (fun r => r.2.1)) : p1 = p2 := by
  obtain ⟨k1, -, -, e1⟩ := encrypt_eq ks1 keytype p1 c1 (by omega) hp1 hb1 hc1
  obtain ⟨k2, -, -, e2⟩ := encrypt_eq ks2 keytype p2 c2 (by omega) hp2 hb2 hc2
  obtain ⟨k3, -, a2, a3, a4, -, -⟩ := set_key_eq ks1 keytype (by omega)
  have h' : Cipher (if keytype = 1 then d_key else u_key) p1 =
      Cipher (if keytype = 1 then d_key else u_key) p2 := by
    simpa only [e1, e2, Option.map_some', Option.some.injEq] using h
  have hW : (KeyExpansion (if keytype = 1 then d_key else u_key)).length = 176 := by
    rw [← a3, List.length_take]; omega
  have hWb : ∀ x ∈ KeyExpansion (if keytype = 1 then d_key else u_key), x < 256 := by
    rw [← a3]; exact a4
  exact Cipher_inj _ p1 p2 hW hWb hp1 hp2 hb1 hb2 h'

/-- Witness of C18 at keytype 1 on one plaintext read twice. -/
theorem C18_encrypt_injective_witness :
    (encrypt (List.replicate 240 0) 1 (List.range 16) (List.replicate 16 0)).map
        (fun r => r.2.1) =
      (encrypt (List.replicate 240 0) 1 (List.range 16) (List.replicate 16 0)).map
        (fun r => r.2.1) ∧
    List.range 16 = List.range 16 :=
  ⟨rfl, C18_encrypt_injective 1 (List.replicate 240 0) (List.replicate 240 0) (List.range 16)
    (List.range 16) (List.replicate 16 0) (List.replicate 16 0) (by decide) (by decide)
    (by decide) (by decide) (by decide) (by decide) (by decide) (by decide) rfl⟩

end AES

/-! ## The checked embedding agrees with the unchecked one

On a key_sched of at least 176 bytes and 16-byte arrays every checked load
and store succeeds, so each checked function returns what the unchecked one
returns. -/

namespace AES

open FIPS197

theorem ld_eq {n : Nat} {a : List Nat} {i : Nat} (h1 : i < n) (h2 : i < a.length) :
    ld n a i = some (a.getD i 0) := by
  simp [ld, h1, List.getD_eq_getElem?_getD, List.getElem?_eq_getElem h2]

theorem ldz_eq {n : Nat} {a : List Nat} {z : Int} (m : Nat) (hz : z = m) (h1 : m < n)
    (h2 : m < a.length) : ldz n a z = some (a.getD m 0) := by
  subst hz
  simp only [ldz, Int.natCast_nonneg, if_true, Int.toNat_ofNat]
  exact ld_eq h1 h2

theorem stor_eq {n : Nat} {a : List Nat} {i : Nat} (v : Nat) (h1 : i < n) (h2 : i < a.length) :
    stor n a i v = some (a.set i v) := by
  simp [stor, h1, h2]

theorem nowrap_eq {x : Nat} (h : x < 256) : nowrap x = some x := by
  simp [nowrap, h]

theorem s_box_chk_eq {x : Nat} (h : x < 256) : s_box_chk x = some (s_box x) := by
  unfold s_box_chk s_box
  exact ld_eq h (by simp [s_fwd]; omega)

/-- Two loop bodies that agree on every state of an invariant give the same
loop, and the state the loop ends in satisfies the invariant. -/
theorem while_loop_congr {σ : Type} (cond : σ → Bool) (b1 b2 : σ → Option σ) (I : σ → Prop)
    (h : ∀ s, I s → cond s = true → b1 s = b2 s ∧ ∀ s', b2 s = some s' → I s') :
    ∀ (fuel : Nat) (s : σ), I s →
      while_loop cond b1 fuel s = while_loop cond b2 fuel s ∧
      ∀ s', while_loop cond b2 fuel s = some s' → I s' := by
  intro fuel
  induction fuel with
  | zero => intro s _; simp [while_loop]
  | succ f ih =>
    intro s hs
    by_cases hc : cond s = true
    · obtain ⟨e, p⟩ := h s hs hc
      simp only [while_loop, hc, if_true, e]
      cases hb : b2 s with
      | none => simp
      | some s1 =>
        simp only [Option.some_bind]
        exact ih s1 (p s1 hb)
    · simp only [while_loop, hc, Bool.false_eq_true, if_false, Option.some.injEq, true_and]
      intro s' hs'
      exact hs' ▸ hs

theorem copy_at_eq {dn sn : Nat} {d s : List Nat} {p : Nat} (h1 : p < dn) (h2 : p < sn)
    (h3 : p < d.length) (h4 : p < s.length) :
    copy_at dn sn d s p = some (d.set p (s.getD p 0)) := by
  simp only [copy_at, ld_eq h2 h4, Option.some_bind, stor_eq _ h1 h3]

theorem copy_n_bytes_rest_chk_eq (dn sn : Nat) (s : List Nat) (nn : Nat) :
    ∀ (p : Nat) (d : List Nat), p + nn ≤ dn → p + nn ≤ sn → p + nn ≤ d.length →
      p + nn ≤ s.length →
      copy_n_bytes_rest_chk dn sn d s p nn = some (copy_n_bytes_rest d s p nn) := by
  induction nn with
  | zero => intro p d _ _ _ _; rfl
  | succ nn ih =>
    intro p d h1 h2 h3 h4
    simp only [copy_n_bytes_rest_chk, copy_n_bytes_rest,
      copy_at_eq (show p < dn by omega) (show p < sn by omega) (show p < d.length by omega)
        (show p < s.length by omega), Option.some_bind]
    exact ih (p + 1) _ (by omega) (by omega) (by rw [List.length_set]; omega) (by omega)

theorem copy_n_bytes_from_chk_eq (dn sn : Nat) (s : List Nat) (m : Nat) :
    ∀ (p : Nat) (d : List Nat), p + 4 * m ≤ dn → p + 4 * m ≤ sn → p + 4 * m ≤ d.length →
      p + 4 * m ≤ s.length →
      copy_n_bytes_from_chk dn sn d s p (4 * m) = some (copy_n_bytes_from d s p (4 * m)) := by
  induction m with
  | zero => intro p d _ _ _ _; rfl
  | succ m ih =>
    intro p d h1 h2 h3 h4
    have e1 : copy_n_bytes_from_chk dn sn d s p (4 * m + 4) =
        (copy_at dn sn d s p).bind fun d =>
        (copy_at dn sn d s (p + 1)).bind fun d =>
        (copy_at dn sn d s (p + 2)).bind fun d =>
        (copy_at dn sn d s (p + 3)).bind fun d =>
        copy_n_bytes_from_chk dn sn d s (p + 4) (4 * m) := rfl
    have e2 : copy_n_bytes_from d s p (4 * m + 4) =
        copy_n_bytes_from ((((d.set p (s.getD p 0)).set (p + 1) (s.getD (p + 1) 0)).set (p + 2)
          (s.getD (p + 2) 0)).set (p + 3) (s.getD (p + 3) 0)) s (p + 4) (4 * m) := rfl
    have l1 : (d.set p (s.getD p 0)).length = d.length := List.length_set _ _ _
    have l2 : ((d.set p (s.getD p 0)).set (p + 1) (s.getD (p + 1) 0)).length = d.length := by
      rw [List.length_set, l1]
    have l3 : (((d.set p (s.getD p 0)).set (p + 1) (s.getD (p + 1) 0)).set (p + 2)
        (s.getD (p + 2) 0)).length = d.length := by
      rw [List.length_set, l2]
    have l4 : ((((d.set p (s.getD p 0)).set (p + 1) (s.getD (p + 1) 0)).set (p + 2)
        (s.getD (p + 2) 0)).set (p + 3) (s.getD (p + 3) 0)).length = d.length := by
      rw [List.length_set, l3]
    rw [show 4 * (m + 1) = 4 * m + 4 by omega, e1, e2,
      copy_at_eq (show p < dn by omega) (show p < sn by omega) (show p < d.length by omega)
        (show p < s.length by omega), Option.some_bind,
      copy_at_eq (show p + 1 < dn by omega) (show p + 1 < sn by omega) (by rw [l1]; omega)
        (show p + 1 < s.length by omega), Option.some_bind,
      copy_at_eq (show p + 2 < dn by omega) (show p + 2 < sn by omega) (by rw [l2]; omega)
        (show p + 2 < s.length by omega), Option.some_bind,
      copy_at_eq (show p + 3 < dn by omega) (show p + 3 < sn by omega) (by rw [l3]; omega)
        (show p + 3 < s.length by omega), Option.some_bind]
    exact ih (p + 4) _ (by omega) (by omega) (by rw [l4]; omega) (by omega)

theorem copy_n_bytes_chk_eq (d s : List Nat) (hd : 16 ≤ d.length) (hs : s.length = 16) :
    copy_n_bytes_chk 176 16 d s 16 = some (copy_n_bytes d s 16) :=
  copy_n_bytes_from_chk_eq 176 16 s 4 0 d (by omega) (by omega) (by omega) (by omega)

theorem xor_at_eq {dn sn kn : Nat} {d s k : List Nat} {p : Nat} (h1 : p < dn) (h2 : p < sn)
    (h3 : p < kn) (h4 : p < d.length) (h5 : p < s.length) (h6 : p < k.length) :
    xor_at dn sn kn d s k p = some (d.set p (byte (s.getD p 0 ^^^ k.getD p 0))) := by
  simp only [xor_at, ld_eq h2 h5, ld_eq h3 h6, Option.some_bind, stor_eq _ h1 h4]

theorem copy_and_key_chk_eq (dn sn kn : Nat) (d s k : List Nat) (h1 : 16 ≤ dn) (h2 : 16 ≤ sn)
    (h3 : 16 ≤ kn) (h4 : 16 ≤ d.length) (h5 : 16 ≤ s.length) (h6 : 16 ≤ k.length) :
    copy_and_key_chk dn sn kn d s k = copy_and_key d s k := by
  unfold copy_and_key_chk copy_and_key
  have key := (while_loop_congr (fun st : Nat × Nat × List Nat => decide (st.1 < 16))
    (copy_and_key_body_chk dn sn kn s k) (fun st => some (copy_and_key_body s k st))
    (fun st => st.1 = st.2.1 ∧ st.2.1 ≤ 16 ∧ st.2.1 % 4 = 0 ∧ 16 ≤ st.2.2.length) ?_ 256
    (0, 0, d) ⟨rfl, Nat.zero_le _, rfl, h4⟩).1
  · rw [key]
  · rintro ⟨i, p, x⟩ ⟨a1, a2, a3, a4⟩ hc
    simp only [decide_eq_true_eq] at hc
    dsimp only at a1 a2 a3 a4 ⊢
    subst a1
    have hp : i + 3 < 16 := by omega
    refine ⟨?_, ?_⟩
    · simp only [copy_and_key_body_chk, copy_and_key_body]
      simp (disch := first | omega | (simp only [List.length_set]; omega)) only [xor_at_eq,
        Option.some_bind]
    · intro s' hs'
      simp only [Option.some.injEq] at hs'
      subst hs'
      simp only [copy_and_key_body, List.length_set]
      refine ⟨?_, by omega, by omega, a4⟩
      unfold byte; omega

theorem shift_sub_rows_chk_eq (st : List Nat) (hst : st.length = 16) (hb : ∀ x ∈ st, x < 256) :
    shift_sub_rows_chk st = some (shift_sub_rows st) := by
  obtain ⟨a0, a1, a2, a3, a4, a5, a6, a7, a8, a9, a10, a11, a12, a13, a14, a15, rfl⟩ := len16 st hst
  simp only [List.mem_cons, List.mem_singleton, forall_eq_or_imp, forall_eq, List.not_mem_nil,
    false_implies, implies_true, and_true] at hb
  obtain ⟨b0, b1, b2, b3, b4, b5, b6, b7, b8, b9, b10, b11, b12, b13, b14, b15⟩ := hb
  simp [shift_sub_rows_chk, shift_sub_rows_chk0, shift_sub_rows_chk1, shift_sub_rows_chk2,
    shift_sub_rows_chk3, sub_at, sub_val, ld, stor, shift_sub_rows, s_box_chk_eq, b0, b1, b2, b3,
    b4, b5, b6, b7, b8, b9, b10, b11, b12, b13, b14, b15]

theorem mix_sub_columns_body_chk_eq (st : List Nat) (hst : st.length = 16)
    (hb : ∀ x ∈ st, x < 256) (m : MixState) (hi : m.i + 3 < 16) (hj : m.j < 16) (hk : m.k < 16)
    (hl : m.l < 16) (hd : 16 ≤ m.dt.length) :
    mix_sub_columns_body_chk st m = some (mix_sub_columns_body st m) := by
  have g := getD_lt_of_bytes st hb
  simp only [mix_sub_columns_body_chk, mix_gather_chk, mix_sub_columns_body]
  simp (disch := first | omega | exact g _ | (simp only [List.length_set]; omega)) only [ld_eq,
    s_box_chk_eq, stor_eq, Option.some_bind]

theorem mix_sub_columns_chk_eq (dt st : List Nat) (hdt : 16 ≤ dt.length) (hst : st.length = 16)
    (hb : ∀ x ∈ st, x < 256) : mix_sub_columns_chk dt st = mix_sub_columns dt st := by
  unfold mix_sub_columns_chk mix_sub_columns
  have key := (while_loop_congr (fun m : MixState => decide (m.i < 16))
    (mix_sub_columns_body_chk st) (fun m => some (mix_sub_columns_body st m))
    (fun m => m.i % 4 = 0 ∧ m.i ≤ 16 ∧ m.j < 16 ∧ m.k < 16 ∧ m.l < 16 ∧ 16 ≤ m.dt.length) ?_ 256
    { i := 0, j := 5, k := 10, l := 15, dt := dt }
    ⟨rfl, Nat.zero_le _, by dsimp only; omega, by dsimp only; omega, by dsimp only; omega,
      hdt⟩).1
  · rw [key]
  · rintro ⟨i, j, k, l, x⟩ ⟨a1, a2, a3, a4, a5, a6⟩ hc
    simp only [decide_eq_true_eq] at hc
    dsimp only at a1 a2 a3 a4 a5 a6 ⊢
    refine ⟨mix_sub_columns_body_chk_eq st hst hb _ (by dsimp only; omega) a3 a4 a5 a6, ?_⟩
    intro s' hs'
    simp only [Option.some.injEq] at hs'
    subst hs'
    simp only [mix_sub_columns_body, List.length_set, and15, byte]
    omega

theorem set_key_body_chk_eq (s : KeyState) (n : Nat) (hn : n < 40)
    (hcc : s.cc = 16 + 4 * n) (hnext : s.next = 16 + 16 * ((n + 3) / 4))
    (hlen : 176 ≤ s.key_sched.length) (hb : ∀ x ∈ s.key_sched.take (16 + 4 * n), x < 256) :
    set_key_body_chk s = some (set_key_body s) := by
  obtain ⟨cc, rc, next, ks⟩ := s
  simp only at hcc hnext hlen hb
  subst hcc hnext
  have b0 : ∀ i, i < 16 + 4 * n → ks.getD i 0 < 256 := fun i hi =>
    getD_lt_of_mem_take ks i _ hi (by omega) hb
  have l0 : ldz 176 ks (((16 + 4 * n : Nat) : Int) - 4 + 0) =
      some (ks.getD (16 + 4 * n - 4 + 0) 0) :=
    ldz_eq (16 + 4 * n - 4 + 0) (by omega) (by omega) (by omega)
  have l1 : ldz 176 ks (((16 + 4 * n : Nat) : Int) - 4 + 1) =
      some (ks.getD (16 + 4 * n - 4 + 1) 0) :=
    ldz_eq (16 + 4 * n - 4 + 1) (by omega) (by omega) (by omega)
  have l2 : ldz 176 ks (((16 + 4 * n : Nat) : Int) - 4 + 2) =
      some (ks.getD (16 + 4 * n - 4 + 2) 0) :=
    ldz_eq (16 + 4 * n - 4 + 2) (by omega) (by omega) (by omega)
  have l3 : ldz 176 ks (((16 + 4 * n : Nat) : Int) - 4 + 3) =
      some (ks.getD (16 + 4 * n - 4 + 3) 0) :=
    ldz_eq (16 + 4 * n - 4 + 3) (by omega) (by omega) (by omega)
  have htt : byte (16 + 4 * n + 256 - 16) = 4 * n := by unfold byte; omega
  have hc4 : byte (16 + 4 * n + 4) = 16 + 4 * n + 4 := byte_of_lt (by omega)
  by_cases hc : n % 4 = 0
  · have e1 : 16 + 4 * n = 16 + 16 * ((n + 3) / 4) := by omega
    have hn16 : byte (16 + 16 * ((n + 3) / 4) + 16) = 16 + 16 * ((n + 3) / 4) + 16 :=
      byte_of_lt (by omega)
    simp only [set_key_body_chk, set_key_body, set_key_load_chk, set_key_rot_chk,
      set_key_store_chk, l0, l1, l2, l3, Option.some_bind, if_pos e1, htt, hc4, hn16]
    simp (disch := first | omega | exact b0 _ (by omega) |
      (simp only [List.length_set]; omega)) only [ld_eq, s_box_chk_eq, stor_eq, nowrap_eq,
      Option.some_bind]
  · have e1 : 16 + 4 * n ≠ 16 + 16 * ((n + 3) / 4) := by omega
    simp only [set_key_body_chk, set_key_body, set_key_load_chk, set_key_rot_chk,
      set_key_store_chk, l0, l1, l2, l3, Option.some_bind, if_neg e1, htt, hc4]
    simp (disch := first | omega | (simp only [List.length_set]; omega)) only [ld_eq, stor_eq,
      nowrap_eq, Option.some_bind]

/-- The checked expansion loop passes through the states of the unchecked
one: after n turns no access has failed and no counter has wrapped. -/
theorem set_key_body_chk_iterate (ks : List Nat) (hlen : 176 ≤ ks.length)
    (hb : ∀ x ∈ ks.take 16, x < 256) (n : Nat) (hn : n ≤ 40) :
    (fun o : Option KeyState => o.bind set_key_body_chk)^[n] (some (set_key_init ks)) =
      some (set_key_body^[n] (set_key_init ks)) := by
  induction n with
  | zero => rfl
  | succ n ih =>
    obtain ⟨h1, -, h3, h4, -, h6, -⟩ := set_key_iterate ks hlen hb n (by omega)
    rw [Function.iterate_succ_apply', ih (by omega), Option.some_bind,
      Function.iterate_succ_apply' set_key_body n]
    exact set_key_body_chk_eq _ n (by omega) h1 h3 (by omega) h6

theorem set_key_expand_chk_eq (ks : List Nat) (hlen : 176 ≤ ks.length)
    (hb : ∀ x ∈ ks.take 16, x < 256) : set_key_expand_chk ks = set_key_expand ks := by
  unfold set_key_expand_chk set_key_expand
  have key := (while_loop_congr (fun s : KeyState => decide (s.cc < hi)) set_key_body_chk
    (fun s => some (set_key_body s))
    (fun s => ∃ n, n ≤ 40 ∧ s = set_key_body^[n] (set_key_init ks)) ?_ 256
    (set_key_init ks) ⟨0, Nat.zero_le _, rfl⟩).1
  · rw [key]
  · rintro s ⟨n, hn, rfl⟩ hc
    obtain ⟨h1, -, h3, h4, -, h6, -⟩ := set_key_iterate ks hlen hb n hn
    simp only [decide_eq_true_eq, h1, hi_eq] at hc
    refine ⟨set_key_body_chk_eq _ n (by omega) h1 h3 (by omega) h6, ?_⟩
    intro s' hs'
    simp only [Option.some.injEq] at hs'
    subst hs'
    exact ⟨n + 1, by omega, (Function.iterate_succ_apply' set_key_body n _).symm⟩

theorem set_key_chk_eq (ks : List Nat) (keytype : Int) (hlen : 176 ≤ ks.length) :
    set_key_chk ks keytype = set_key ks keytype := by
  by_cases h : keytype = 1
  · obtain ⟨c1, c2, -⟩ := copy_n_bytes_16 ks d_key (by omega) d_key_facts.1
    simp only [set_key_chk, set_key, h, if_true,
      copy_n_bytes_chk_eq ks d_key (by omega) d_key_facts.1, Option.some_bind]
    rw [set_key_expand_chk_eq _ (by omega) (by rw [c2]; exact d_key_facts.2)]
  · obtain ⟨c1, c2, -⟩ := copy_n_bytes_16 ks u_key (by omega) u_key_facts.1
    simp only [set_key_chk, set_key, h, if_false,
      copy_n_bytes_chk_eq ks u_key (by omega) u_key_facts.1, Option.some_bind]
    rw [set_key_expand_chk_eq _ (by omega) (by rw [c2]; exact u_key_facts.2)]

theorem encrypt_round_chk_eq (ks W s : List Nat) (hW : ks.take 176 = W) (hlen : 176 ≤ ks.length)
    (hb : ∀ x ∈ W, x < 256) (r : Nat) (hr : r ≤ 10)
    (hs : s.length = 16) (hsb : ∀ x ∈ s, x < 256) :
    encrypt_round_chk ks (s, r) = encrypt_round ks (s, r) := by
  obtain ⟨m1, m2, m3⟩ := mix_sub_columns_eq (List.replicate 16 0) s (by simp) hs hsb
  have c := mix_sub_columns_chk_eq (List.replicate 16 0) s (by simp) hs hsb
  have hd : 16 ≤ (ks.drop (r * 16)).length := by rw [List.length_drop]; omega
  simp only [encrypt_round_chk, encrypt_round, c, m1, Option.some_bind]
  rw [copy_and_key_chk_eq 16 16 (176 - r * 16) s _ _ (by omega) (by omega) (by omega) (by omega)
    (by omega) hd]

theorem encrypt_rounds_chk_eq (ks W plain cipher : List Nat) (hW : ks.take 176 = W)
    (hlen : 176 ≤ ks.length) (hb : ∀ x ∈ W, x < 256)
    (hp : plain.length = 16) (hpb : ∀ x ∈ plain, x < 256) (hc : cipher.length = 16) :
    encrypt_rounds_chk ks plain cipher = encrypt_rounds ks plain cipher := by
  have hWl : W.length = 176 := by rw [← hW, List.length_take]; omega
  have h0 := copy_and_key_round ks W (List.replicate 16 0) plain hW hlen hb 0 (by omega)
    (by simp) hp hpb
  simp only [Nat.zero_mul, List.drop_zero] at h0
  have c0 := copy_and_key_chk_eq 16 16 176 (List.replicate 16 0) plain ks (by omega) (by omega)
    (by omega) (by simp) (by omega) (by omega)
  obtain ⟨k1, k2, -⟩ := RoundKey_facts ks W hW hlen hb 0 (by omega)
  have a1 := AddRoundKey_length _ _ hp k1
  have a2 := AddRoundKey_lt _ _ hpb k2
  have key := while_loop_congr (fun st : List Nat × Nat => decide (st.2 < 10))
    (encrypt_round_chk ks) (encrypt_round ks)
    (fun st => st.1.length = 16 ∧ (∀ x ∈ st.1, x < 256) ∧ st.2 ≤ 10) ?_ 256
    (AddRoundKey plain (RoundKey W 0), 1) ⟨a1, a2, by dsimp only; omega⟩
  · obtain ⟨e, p⟩ := key
    have hloop := round_loop_eq ks W hW hlen hb 9 1 256 _ (by omega) (by omega) a1 a2
    obtain ⟨i1, i2, -⟩ := p _ hloop
    have hd : 16 ≤ (ks.drop (10 * 16)).length := by rw [List.length_drop]; omega
    have hfin := copy_and_key_chk_eq 16 16 (176 - 10 * 16) cipher
      (shift_sub_rows ((List.range' 1 9).foldl (Round W) (AddRoundKey plain (RoundKey W 0))))
      (ks.drop (10 * 16)) (by omega) (by omega) (by omega) (by omega)
      (by rw [shift_sub_rows_length, i1]) hd
    simp only [encrypt_rounds_chk, encrypt_rounds, c0, h0, Option.some_bind, e, hloop,
      shift_sub_rows_chk_eq _ i1 i2, hfin]
  · rintro ⟨s, r⟩ ⟨b1, b2, b3⟩ hc'
    simp only [decide_eq_true_eq] at hc'
    dsimp only at b1 b2 b3 ⊢
    refine ⟨encrypt_round_chk_eq ks W s hW hlen hb r b3 b1 b2, ?_⟩
    intro s' hs'
    rw [encrypt_round_eq ks W s hW hlen hb r b3 b1 b2, Option.some.injEq] at hs'
    subst hs'
    obtain ⟨l1, l2⟩ := Round_facts W s hWl hb r b3 b1 b2
    refine ⟨l1, l2, ?_⟩
    dsimp only
    unfold byte
    omega

theorem encrypt_chk_eq (ks : List Nat) (keytype : Int) (plain cipher : List Nat)
    (hlen : 176 ≤ ks.length) (hp : plain.length = 16) (hpb : ∀ x ∈ plain, x < 256)
    (hc : cipher.length = 16) :
    encrypt_chk ks keytype plain cipher = encrypt ks keytype plain cipher := by
  obtain ⟨ks', e1, e2, e3, e4, -, -⟩ := set_key_eq ks keytype hlen
  simp only [encrypt_chk, encrypt, set_key_chk_eq ks keytype hlen, e1, Option.some_bind,
    encrypt_rounds_chk_eq ks' _ plain cipher e3 (by omega) (by rw [← e3]; exact e4) hp hpb hc]

/-- C19: every array access of set_key and encrypt is in bounds, for every
keytype and every 16-byte plaintext.  In the checked embedding a load or a
store fails when its index is outside 0..175 for key_sched, outside 0..15 for
a state array, plain, cipher or a root key, or outside 0..255 for s_fwd, and
an update of cc or next fails when it would wrap.  The checked set_key and
encrypt nevertheless return a result, the one of the unchecked functions,
so no access in copy_n_bytes, the expansion loop, copy_and_key,
mix_sub_columns or shift_sub_rows failed.  After each of the 40 turns of the
expansion loop the checked state exists, with cc = 16 + 4 n at most 176 and
next at most 176. -/
theorem C19_accesses_in_bounds (keytype : Int) (key_sched plain cipher : List Nat)
    (hk : 176 ≤ key_sched.length) (hp : plain.length = 16) (hpb : ∀ x ∈ plain, x < 256)
    (hc : cipher.length = 16) :
    (∃ ks, set_key_chk key_sched keytype = some (ks, 0) ∧
      set_key key_sched keytype = some (ks, 0)) ∧
    (∃ ks ct, encrypt_chk key_sched keytype plain cipher = some (ks, ct, 0) ∧
      encrypt key_sched keytype plain cipher = some (ks, ct, 0)) ∧
    ∃ ks0, copy_n_bytes_chk 176 16 key_sched (if keytype = 1 then d_key else u_key) 16 =
        some ks0 ∧
      ∀ n, n ≤ 40 → ∃ s,
        (fun o : Option KeyState => o.bind set_key_body_chk)^[n] (some (set_key_init ks0)) =
          some s ∧
        s.cc = 16 + 4 * n ∧ s.cc ≤ 176 ∧ s.next ≤ 176 := by
  refine ⟨?_, ?_, ?_⟩
  · obtain ⟨ks, e1, -⟩ := set_key_eq key_sched keytype hk
    exact ⟨ks, by rw [set_key_chk_eq _ _ hk, e1], e1⟩
  · obtain ⟨ks, -, -, e3⟩ := encrypt_eq key_sched keytype plain cipher hk hp hpb hc
    exact ⟨ks, _, by rw [encrypt_chk_eq _ _ _ _ hk hp hpb hc, e3], e3⟩
  · have kf : (if keytype = 1 then d_key else u_key).length = 16 ∧
        ∀ x ∈ (if keytype = 1 then d_key else u_key), x < 256 := by
      split_ifs
      · exact d_key_facts
      · exact u_key_facts
    obtain ⟨c1, c2, -⟩ := copy_n_bytes_16 key_sched _ (by omega) kf.1
    refine ⟨_, copy_n_bytes_chk_eq key_sched _ (by omega) kf.1, ?_⟩
    intro n hn
    have hb0 : ∀ x ∈ (copy_n_bytes key_sched (if keytype = 1 then d_key else u_key) 16).take 16,
        x < 256 := by
      rw [c2]
      exact kf.2
    obtain ⟨h1, -, h3, -⟩ := set_key_iterate _ (by omega) hb0 n hn
    exact ⟨_, set_key_body_chk_iterate _ (by omega) hb0 n hn, h1, by omega, by omega⟩

/-- Witness of C19 at keytype 1 on a zeroed key_sched and the plaintext
00 01 .. 0f. -/
theorem C19_accesses_in_bounds_witness :
    ∃ ks ct, encrypt_chk (List.replicate 240 0) 1 (List.range 16) (List.replicate 16 0) =
        some (ks, ct, 0) ∧
      encrypt (List.replicate 240 0) 1 (List.range 16) (List.replicate 16 0) =
        some (ks, ct, 0) :=
  (C19_accesses_in_bounds 1 (List.replicate 240 0) (List.range 16) (List.replicate 16 0)
    (by decide) (by decide) (by decide) (by decide)).2.1

end AES
